import Mathlib

/-!
Verification of the rule-based extraction pipeline of `src/app.py`
(WebSpec Maker).

Strings are modelled as `List Char` (abbreviated `Str`); Python string
operations (`strip`, `lstrip`, `splitlines`, slicing, `replace`, the
regular expressions used by the source) are modelled character by
character.  `pdf_bytes` is consumed only by `guess_title_from_pdf`
through the fitz reads; we model the document by the metadata pair and
the font-size spans those reads produce (a failed read is `none`).
Font sizes are modelled as rationals (the claims only compare them).
`unicodedata.normalize("NFKC", ·)` is modelled char-wise by `nfkcChar`,
the restriction of the NFKC compatibility mapping to a few code points
of the document domain (identity elsewhere).
-/

set_option maxRecDepth 20000

abbrev Str := List Char

def sl (s : String) : Str := s.toList

/-- The Python `str.isspace` character set (used by `strip` and by the
regex class `\s`). -/
def pyWS (c : Char) : Bool :=
  let n := c.toNat
  decide (n = 32) || (decide (9 ≤ n) && decide (n ≤ 13)) ||
  (decide (28 ≤ n) && decide (n ≤ 31)) || decide (n = 0x85) || decide (n = 0xA0) ||
  decide (n = 0x1680) || (decide (0x2000 ≤ n) && decide (n ≤ 0x200A)) ||
  decide (n = 0x2028) || decide (n = 0x2029) || decide (n = 0x202F) ||
  decide (n = 0x205F) || decide (n = 0x3000)

def isAsciiUpper (c : Char) : Bool := decide (65 ≤ c.toNat) && decide (c.toNat ≤ 90)

def isAsciiLower (c : Char) : Bool := decide (97 ≤ c.toNat) && decide (c.toNat ≤ 122)

def isAsciiLetter (c : Char) : Bool := isAsciiUpper c || isAsciiLower c

def isAsciiDigit (c : Char) : Bool := decide (48 ≤ c.toNat) && decide (c.toNat ≤ 57)

def isAsciiAlnum (c : Char) : Bool := isAsciiLetter c || isAsciiDigit c

/-- Hangul syllable block, the class of `_HANGUL_RX = [가-힣]`. -/
def isHangul (c : Char) : Bool := decide (0xAC00 ≤ c.toNat) && decide (c.toNat ≤ 0xD7A3)

/-- Regex `\w` restricted to ASCII word characters plus the Hangul block
(the scripts occurring in this domain). -/
def isWordChar (c : Char) : Bool := isAsciiAlnum c || decide (c.toNat = 95) || isHangul c

/-- Python `str.lower`, restricted to the ASCII case mapping (Hangul and
the other characters of the domain are caseless). -/
def pyLowerChar (c : Char) : Char :=
  if isAsciiUpper c then Char.ofNat (c.toNat + 32) else c

def pyLower (s : Str) : Str := s.map pyLowerChar

/-- Drop characters from the end of the list while `p` holds. -/
def dropEndWhile (p : Char → Bool) : Str → Str
  | [] => []
  | c :: cs =>
    match dropEndWhile p cs with
    | [] => if p c then [] else [c]
    | r => c :: r

theorem dropWhile_len_le (p : Char → Bool) (l : Str) : (l.dropWhile p).length ≤ l.length := by
  induction l with
  | nil => simp [List.dropWhile]
  | cons c cs ih =>
    simp only [List.dropWhile]
    split
    · exact Nat.le_succ_of_le ih
    · simp

/-- Python `str.strip()`. -/
def pyStrip (s : Str) : Str := dropEndWhile pyWS (s.dropWhile pyWS)

/-- Python `str.rstrip()`. -/
def pyRStrip (s : Str) : Str := dropEndWhile pyWS s

/-- `re.sub(r"\s+", " ", s)`: collapse every maximal whitespace run to a
single space (structural right-fold formulation: a whitespace head
merges with an already-collapsed tail that starts with the run's single
space). -/
def collapseWS : Str → Str
  | [] => []
  | c :: cs =>
    if pyWS c then
      match collapseWS cs with
      | [] => [' ']
      | d :: ds => if pyWS d then d :: ds else ' ' :: d :: ds
    else c :: collapseWS cs

/-- Line boundaries of Python `str.splitlines`. -/
def isLineBoundary (c : Char) : Bool :=
  let n := c.toNat
  decide (n = 10) || decide (n = 13) || decide (n = 11) || decide (n = 12) ||
  decide (n = 28) || decide (n = 29) || decide (n = 30) || decide (n = 0x85) ||
  decide (n = 0x2028) || decide (n = 0x2029)

/-- Fuse the two-character boundary `"\r\n"` into `"\n"` so that the
line splitter below only handles one-character boundaries. -/
def fixCRLF : Str → Str
  | [] => []
  | [c] => [c]
  | c :: d :: rest =>
    if c = '\r' ∧ d = '\n' then '\n' :: fixCRLF rest
    else c :: fixCRLF (d :: rest)

def slGo : Str → Str → List Str
  | [], acc => [acc.reverse]
  | c :: rest, acc =>
    if isLineBoundary c then acc.reverse :: (if rest = [] then [] else slGo rest [])
    else slGo rest (c :: acc)

/-- Python `str.splitlines()` (no trailing empty piece for a terminal
newline; `"".splitlines() = []`). -/
def splitLines (l : Str) : List Str := if l = [] then [] else slGo (fixCRLF l) []

/-- Python `s.replace(a, b)` for one-character `a`, `b`. -/
def replChar (a b : Char) (s : Str) : Str := s.map (fun c => if c = a then b else c)

/-- Python `s.replace(a, "")` for a one-character `a`. -/
def removeChar (a : Char) (s : Str) : Str := s.filter (fun c => !(c == a))

/-- Python `pat in hay` (substring containment). -/
def containsSub (hay pat : Str) : Bool := hay.tails.any (fun suf => pat.isPrefixOf suf)

/-- `unicodedata.normalize("NFKC", ·)`, modelled char-wise: the NFKC
compatibility mapping restricted to a few code points occurring in this
domain (ideographic space, fullwidth colon, circled one, the squared
MHz/GHz signs); identity on every other character. -/
def nfkcChar (c : Char) : Str :=
  if c = '　' then [' ']
  else if c = '：' then [':']
  else if c = '①' then ['1']
  else if c = '㎒' then ['M', 'H', 'z']
  else if c = '㎓' then ['G', 'H', 'z']
  else [c]

def nfkc (s : Str) : Str := (s.map nfkcChar).flatten

/-- The unit vocabulary of `_UNIT_RX`. -/
def UNIT_WORDS : List Str :=
  (["ghz", "mhz", "khz", "gb", "mb", "tb", "w", "v", "a", "mm", "cm", "inch",
    "gbit", "gbe", "pcie", "usb", "sata", "nvme", "ddr", "rdimm", "udimm",
    "ecc", "wifi", "bt", "poe"] : List String).map String.toList

def wordAt (s : Str) (i : Nat) : Bool :=
  match s[i]? with
  | some c => isWordChar c
  | none => false

/-- `\b` holds before position `i` given that the match starts with a
word character. -/
def bdryBefore (s : Str) (i : Nat) : Bool := if i = 0 then true else !(wordAt s (i - 1))

/-- One unit word of `_UNIT_RX` matches at position `i` (case-insensitive,
with the `\b` boundaries of the regex). -/
def unitMatchAt (s : Str) (i : Nat) (u : Str) : Bool :=
  (pyLower ((s.drop i).take u.length) == u) && bdryBefore s i &&
  !(wordAt s (i + u.length))

/-- `_UNIT_RX.search(s)` succeeds. -/
def hasUnitTok (s : Str) : Bool :=
  (List.range (s.length + 1)).any (fun i => UNIT_WORDS.any (fun u => unitMatchAt s i u))

/-- `re.search(r"\d", s)` (ASCII digits in this domain). -/
def hasDigitB (s : Str) : Bool := s.any isAsciiDigit

/-- `_HANGUL_RX.search(s)` succeeds. -/
def hasHangulB (s : Str) : Bool := s.any isHangul

/-- The content-admission test of `_normalize_korean_bullets`:
`has_kr or has_num_unit`. -/
def contentOK (s : Str) : Bool := hasHangulB s || hasDigitB s || hasUnitTok s

/-- The class of `_PUNCT_TRIM_RX = [\"'·•*•]+$`. -/
def punctTrimChar (c : Char) : Bool :=
  c == '"' || c == '\'' || c == '·' || c == '•' || c == '*'

/-- Trailing list-separator characters, `[、,…]+$`. -/
def commaTrimChar (c : Char) : Bool := c == '、' || c == ',' || c == '…'

/-- `replace("–","-").replace("—","-")`, char-wise. -/
def dashFix (c : Char) : Char := if c = '–' then '-' else if c = '—' then '-' else c

/-- The prefixes tested by `s.startswith(("-", "•", "*"))`. -/
def leadMarker (c : Char) : Bool := c == '-' || c == '•' || c == '*'

/-- The character set of `s.lstrip("•* ")`: note it does not contain `-`. -/
def lstripMarker (c : Char) : Bool := c == '•' || c == '*' || c == ' '

/-- `if s.startswith(("-", "•", "*")): s = s.lstrip("•* ").strip()`. -/
def stage1 (s : Str) : Str :=
  match s with
  | c :: _ => if leadMarker c then pyStrip (s.dropWhile lstripMarker) else s
  | [] => s

/-- `if not s.startswith("- "): s = "- " + s`. -/
def stage2 (s : Str) : Str := if ['-', ' '].isPrefixOf s then s else '-' :: ' ' :: s

/-- `s.replace("•", "").replace("–", "-").replace("—", "-")`. -/
def stage5 (s : Str) : Str := replChar '—' '-' (replChar '–' '-' (removeChar '•' s))

/-- `s = _PUNCT_TRIM_RX.sub("", s).strip()`. -/
def stage6 (s : Str) : Str := pyStrip (dropEndWhile punctTrimChar s)

/-- `s = re.sub(r"[、,…]+$", "", s).strip()`. -/
def stage7 (s : Str) : Str := pyStrip (dropEndWhile commaTrimChar s)

/-- `if len(s) > max_len: s = s[:max_len].rstrip()`. -/
def stage8 (maxLen : Nat) (s : Str) : Str :=
  if maxLen < s.length then pyRStrip (s.take maxLen) else s

/-- One loop iteration of `_normalize_korean_bullets` up to the
content-admission test: `none` means the item is skipped. -/
def normItem (maxLen : Nat) (raw : Str) : Option Str :=
  let s0 := pyStrip raw
  if s0 = [] then none
  else
    let s := stage8 maxLen (stage7 (stage6 (stage5 (collapseWS (nfkc (stage2 (stage1 s0)))))))
    if contentOK s then some s else none

/-- The loop of `_normalize_korean_bullets`, carrying the `seen` set of
lower-cased keys (a list models the Python set: only membership and
insertion are used). -/
def normAux (maxLen : Nat) : List Str → List Str → List Str
  | [], _ => []
  | raw :: rest, seen =>
    match normItem maxLen raw with
    | none => normAux maxLen rest seen
    | some s =>
      let key := pyLower s
      if seen.contains key then normAux maxLen rest seen
      else s :: normAux maxLen rest (key :: seen)

/-- `_normalize_korean_bullets(items, max_len)`. -/
def normalize_korean_bullets (items : List Str) (maxLen : Nat) : List Str :=
  normAux maxLen items []

/-- `_truncate(s, n) = (s or "").strip().replace("\n", " ")[:max(0, n)]`. -/
def pyTruncate (s : Str) (n : Int) : Str :=
  (replChar '\n' ' ' (pyStrip s)).take (max 0 n).toNat

/-- First index at which `pat` occurs in `s` (Python `str.find`-style). -/
def findSubIdx (pat s : Str) : Option Nat :=
  (List.range (s.length + 1)).find? (fun i => pat.isPrefixOf (s.drop i))

/-- The key/value split of `extract_kv_candidates`: first colon, else
first literal `" - "`, else `none`. -/
def splitKV (s : Str) : Option (Str × Str) :=
  if s.contains ':' then
    some (s.takeWhile (fun c => !(c == ':')), (s.dropWhile (fun c => !(c == ':'))).tail)
  else
    match findSubIdx (sl " - ") s with
    | some i => some (s.take i, s.drop (i + 3))
    | none => none

def extract_kv_go (maxItems : Nat) : List Str → List (Str × Str) → List (Str × Str)
  | [], out => out
  | line :: rest, out =>
    let s := pyStrip line
    if s = [] ∨ 300 < s.length then extract_kv_go maxItems rest out
    else
      match splitKV s with
      | none => extract_kv_go maxItems rest out
      | some (k0, v0) =>
        let k := pyStrip k0
        let v := pyStrip v0
        let out' := if 1 ≤ k.length ∧ k.length ≤ 60 ∧ v ≠ [] then out ++ [(k, v)] else out
        if maxItems ≤ out'.length then out' else extract_kv_go maxItems rest out'

/-- `extract_kv_candidates(text, max_items)`. -/
def extract_kv_candidates (text : Str) (maxItems : Nat) : List (Str × Str) :=
  extract_kv_go maxItems (splitLines text) []

def BULLET_MARKERS : Str := ['•', '●', '-', '▪', '‣', '–', '—', '·', '*']

/-- The character set of `strip(" -–—·:*")` in `extract_bullets`. -/
def bulletEdge (c : Char) : Bool :=
  c == ' ' || c == '-' || c == '–' || c == '—' || c == '·' || c == ':' || c == '*'

def extract_bullets_go (maxItems : Nat) : List Str → List Str → List Str
  | [], out => out
  | line :: rest, out =>
    let s := pyStrip line
    if s = [] then extract_bullets_go maxItems rest out
    else
      let isB :=
        match s with
        | c :: _ => BULLET_MARKERS.contains c ||
            BULLET_MARKERS.any (fun m => [m, ' '].isPrefixOf s)
        | [] => false
      let out' :=
        if isB then
          let s2 := dropEndWhile bulletEdge
            ((s.dropWhile (fun c => BULLET_MARKERS.contains c)).dropWhile bulletEdge)
          if s2 = [] then out else out ++ [s2]
        else out
      if maxItems ≤ out'.length then out' else extract_bullets_go maxItems rest out'

/-- `extract_bullets(text, max_items)`. -/
def extract_bullets (text : Str) (maxItems : Nat) : List Str :=
  extract_bullets_go maxItems (splitLines text) []

/-! ## The model-code pattern `MODEL_RX`

`MODEL_RX = \b([A-Z]{2,}[A-Z0-9\-_/]{1,}|[A-Z0-9]{2,}\-[A-Z0-9\-_/]+)\b`
with `re.IGNORECASE`.  The backtracking search is modelled in its derived
deterministic form: at each start position (leftmost first) branch A is
tried before branch B; since the trailing `\b` depends only on the end
position, greedy matching with backtracking selects the largest end
position allowed by the character classes that satisfies the boundary. -/

/-- The class `[A-Z0-9\-_/]` under `IGNORECASE`. -/
def isTailChar (c : Char) : Bool := isAsciiAlnum c || c == '-' || c == '_' || c == '/'

/-- `\b` at position `j` of `s` (exactly one neighbour is a word char;
out of range counts as non-word). -/
def bAt (s : Str) (j : Nat) : Bool :=
  (if j = 0 then false else wordAt s (j - 1)) != wordAt s j

/-- Branch `[A-Z]{2,}[A-Z0-9\-_/]{1,}` followed by `\b`, at start `i`:
the largest end with at least two leading letters, at least three
characters, all in the tail class, and a boundary at the end. -/
def matchModelA (s : Str) (i : Nat) : Option Nat :=
  let rest := s.drop i
  let letterRun := (rest.takeWhile isAsciiLetter).length
  let tailRun := (rest.takeWhile isTailChar).length
  if 2 ≤ letterRun then
    (((List.range (tailRun + 1)).reverse).find?
        (fun j => decide (3 ≤ j) && bAt s (i + j))).map (fun j => i + j)
  else none

/-- Branch `[A-Z0-9]{2,}\-[A-Z0-9\-_/]+` followed by `\b`, at start `i`
(alnum run tried greedily, then the literal `-`, then the greedy tail). -/
def matchModelB (s : Str) (i : Nat) : Option Nat :=
  let rest := s.drop i
  let alnumRun := (rest.takeWhile isAsciiAlnum).length
  ((List.range (alnumRun + 1)).reverse).findSome? (fun n =>
    if 2 ≤ n ∧ s[i + n]? = some '-' then
      let tRun := ((s.drop (i + n + 1)).takeWhile isTailChar).length
      (((List.range (tRun + 1)).reverse).find?
          (fun t => decide (1 ≤ t) && bAt s (i + n + 1 + t))).map
        (fun t => i + n + 1 + t)
    else none)

/-- `MODEL_RX.search(s)`: the leftmost match, returning `group(1)`. -/
def findModelToken (s : Str) : Option Str :=
  (List.range s.length).findSome? (fun i =>
    if bAt s i then
      match matchModelA s i with
      | some j => some ((s.drop i).take (j - i))
      | none =>
        match matchModelB s i with
        | some j => some ((s.drop i).take (j - i))
        | none => none
    else none)

/-! ## Title resolution (`guess_title_from_pdf`) -/

def PLACEHOLDER : Str := sl "제품명"

/-- One iteration of the metadata loop: `v = (meta.get(k) or "").strip()`;
`if v and 2 <= len(v) <= 100: m = MODEL_RX.search(v); return (m.group(1)
if m else v).strip()`. -/
def tryMetaField (v0 : Str) : Option Str :=
  let v := pyStrip v0
  if v ≠ [] ∧ 2 ≤ v.length ∧ v.length ≤ 100 then
    some (pyStrip ((findModelToken v).getD v))
  else none

def metaTitle : Option (Str × Str) → Option Str
  | none => none
  | some (t, su) => (tryMetaField t).orElse (fun _ => tryMetaField su)

/-- Stable insertion for the descending sort by font size
(`tops.sort(key=lambda x: x[0], reverse=True)`; Python's sort is stable,
so an element is placed after every earlier element of size ≥ its own). -/
def insertDesc (x : ℚ × Str) : List (ℚ × Str) → List (ℚ × Str)
  | [] => [x]
  | y :: ys => if x.1 ≤ y.1 then y :: insertDesc x ys else x :: y :: ys

def sortBySizeDesc (l : List (ℚ × Str)) : List (ℚ × Str) :=
  l.foldl (fun acc x => insertDesc x acc) []

/-- The span branch of `guess_title_from_pdf`: keep spans with non-empty
stripped text and size ≥ 8, sort by size descending, scan the first 50
for a model-code match, else return the largest span's text cut to 80. -/
def spanTitle : Option (List (ℚ × Str)) → Option Str
  | none => none
  | some sp =>
    let tops := sp.filterMap (fun p =>
      let txt := pyStrip p.2
      if txt ≠ [] ∧ 8 ≤ p.1 then some (p.1, txt) else none)
    match sortBySizeDesc tops with
    | [] => none
    | top :: restS =>
      match ((top :: restS).take 50).findSome?
          (fun q => (findModelToken q.2).map pyStrip) with
      | some r => some r
      | none => some (top.2.take 80)

/-- `for line in text.splitlines(): s = line.strip(); if s: return s[:80]`. -/
def firstLineTitle (text : Str) : Option Str :=
  (splitLines text).findSome? (fun line =>
    let s := pyStrip line
    if s = [] then none else some (s.take 80))

/-- `guess_title_from_pdf(pdf_bytes, text)`, with the two fitz reads
modelled by `meta` and `spans` (`none` = read failed/absent). -/
def guess_title_from_pdf (meta : Option (Str × Str))
    (spans : Option (List (ℚ × Str))) (text : Str) : Str :=
  match metaTitle meta with
  | some r => r
  | none =>
    match spanTitle spans with
    | some r => r
    | none =>
      match findModelToken text with
      | some tok => tok.take 80
      | none =>
        match firstLineTitle text with
        | some r => r
        | none => PLACEHOLDER

/-! ## Category matching and field assembly -/

def REQUIRED_KEYS : List Str :=
  (["CPU", "GPU", "Memory", "Storage", "Power", "I/O", "LAN",
    "Dimensions", "Operating Temperature"] : List String).map String.toList

def KEY_ALIASES : List (Str × List Str) :=
  ([("CPU", ["CPU", "Processor", "프로세서"]),
    ("GPU", ["GPU", "Graphics", "그래픽", "VGA"]),
    ("Memory", ["Memory", "RAM", "메모리", "DRAM", "DDR", "RDIMM", "UDIMM", "ECC"]),
    ("Storage", ["Storage", "스토리지", "SSD", "HDD", "NVMe", "SATA", "M.2", "U.2"]),
    ("Power", ["Power", "PSU", "전원", "AC", "DC", "Adapter", "어댑터", "전력", "입력"]),
    ("I/O", ["I/O", "IO", "Interface", "입출력", "포트", "USB", "PCIe", "HDMI", "DP",
             "VGA", "COM", "RS-232", "RS-485"]),
    ("LAN", ["LAN", "Ethernet", "GbE", "10GbE", "2.5GbE", "RJ-45", "네트워크"]),
    ("Dimensions", ["Dimensions", "크기", "규격", "외형", "치수", "Size", "Form Factor",
                    "W x D x H", "WxDxH", "mm", "cm", "inch"]),
    ("Operating Temperature", ["Operating Temperature", "Operating Temp", "동작 온도",
                               "작동 온도", "온도", "Temperature range", "Operating range"])]
    : List (String × List String)).map (fun p => (p.1.toList, p.2.map String.toList))

/-- `KEY_ALIASES.get(alias_key, [alias_key])`. -/
def aliasGet (k : Str) : List Str :=
  match KEY_ALIASES.find? (fun p => p.1 == k) with
  | some p => p.2
  | none => [k]

/-- `_matches_key(alias_key, k, v)`. -/
def matches_key (aliasKey k v : Str) : Bool :=
  let kk := pyLower k
  let vv := pyLower v
  (aliasGet aliasKey).any (fun tok =>
    let t := pyLower tok
    containsSub kk t || containsSub vv t)

/-- `f"- {key}: {v}"`. -/
def mkBullet (k v : Str) : Str := sl "- " ++ k ++ sl ": " ++ v

/-- The inner scan of the category pass: the first kv index not in
`used` whose pair matches the category. -/
def findKVMatch (key : Str) (kv : List (Str × Str)) (used : List Nat) :
    Option (Nat × Str × Str) :=
  kv.enum.find? (fun e => !(used.contains e.1) && matches_key key e.2.1 e.2.2)

/-- The category pass of `rules_build_fields`; the returned flag records
the early `return` taken when `len(feats) >= limit`. -/
def catPass (kv : List (Str × Str)) (limit : Nat) :
    List Str → List Str → List Nat → List Str × List Nat × Bool
  | [], feats, used => (feats, used, false)
  | key :: restKeys, feats, used =>
    let st :=
      match findKVMatch key kv used with
      | some e => (feats ++ [mkBullet key e.2.2], used ++ [e.1])
      | none => (feats, used)
    if limit ≤ st.1.length then (st.1, st.2, true)
    else catPass kv limit restKeys st.1 st.2

/-- The generic key/value pass (`# 추가 K:V`); the flag records the early
`return`. -/
def genPass (limit : Nat) (used : List Nat) :
    List (Nat × Str × Str) → List Str → List Str × Bool
  | [], feats => (feats, false)
  | e :: rest, feats =>
    if used.contains e.1 then genPass limit used rest feats
    else
      let pair := mkBullet e.2.1 e.2.2
      let feats' := if feats.contains pair then feats else feats ++ [pair]
      if limit ≤ feats'.length then (feats', true)
      else genPass limit used rest feats'

/-- The bullet top-up pass (`# 불릿 보강`; `break`, not `return`). -/
def bulPass (limit : Nat) : List Str → List Str → List Str
  | [], feats => feats
  | b :: rest, feats =>
    let bl := match b with
      | '-' :: _ => b
      | _ => sl "- " ++ b
    let feats' := if feats.contains bl then feats else feats ++ [bl]
    if limit ≤ feats'.length then feats' else bulPass limit rest feats'

def FEATURE_MAX : Nat := 24

/-- `rules_build_fields(pdf_bytes, text, desc_max, summary_max, limit)`,
with the document's fitz reads modelled by `meta`/`spans`.  Each early
`return` applies `_normalize_korean_bullets(feats, 64)[:limit]`; the
final path normalizes and then cuts to `limit`. -/
def rules_build_fields (meta : Option (Str × Str)) (spans : Option (List (ℚ × Str)))
    (text : Str) (desc_max summary_max : Int) (limit : Nat) :
    Str × Str × Str × List Str :=
  let name := guess_title_from_pdf meta spans text
  let desc := pyTruncate text desc_max
  let summary := pyTruncate text summary_max
  let kv := extract_kv_candidates text 500
  let bullets := extract_bullets text 300
  match catPass kv limit REQUIRED_KEYS [] [] with
  | (feats, _, true) =>
      (name, desc, summary, (normalize_korean_bullets feats 64).take limit)
  | (feats, used, false) =>
    match genPass limit used kv.enum feats with
    | (feats2, true) =>
        (name, desc, summary, (normalize_korean_bullets feats2 64).take limit)
    | (feats2, false) =>
      let feats3 := bulPass limit bullets feats2
      (name, desc, summary, (normalize_korean_bullets feats3 64).take limit)

/-! ## Generic lemmas about the string-operation models -/

theorem takeIsPre {α : Type} (l : List α) (n : Nat) : l.take n <+: l :=
  ⟨l.drop n, List.take_append_drop n l⟩

theorem dropEndWhile_pre (p : Char → Bool) (l : Str) : dropEndWhile p l <+: l := by
  induction l with
  | nil => simp [dropEndWhile]
  | cons c cs ih =>
    rw [dropEndWhile]
    rcases h : dropEndWhile p cs with _ | ⟨r, rs⟩
    · show (if p c = true then [] else [c]) <+: c :: cs
      split
      · exact ⟨c :: cs, rfl⟩
      · exact ⟨cs, rfl⟩
    · show c :: r :: rs <+: c :: cs
      rw [h] at ih
      obtain ⟨t, ht⟩ := ih
      exact ⟨t, by rw [List.cons_append, ht]⟩

theorem dropEndWhile_len_le (p : Char → Bool) (l : Str) :
    (dropEndWhile p l).length ≤ l.length :=
  (dropEndWhile_pre p l).sublist.length_le

theorem dropEndWhile_getLast? (p : Char → Bool) (l : Str) (a : Char)
    (h : (dropEndWhile p l).getLast? = some a) : p a = false := by
  induction l with
  | nil => simp [dropEndWhile] at h
  | cons c cs ih =>
    rw [dropEndWhile] at h
    rcases h' : dropEndWhile p cs with _ | ⟨r, rs⟩
    · rw [h'] at h
      have h2 : (if p c = true then ([] : Str) else [c]).getLast? = some a := h
      by_cases hc : p c = true
      · rw [if_pos hc] at h2
        simp at h2
      · rw [if_neg hc] at h2
        simp at h2
        subst h2
        simp at hc
        exact hc
    · rw [h'] at h
      have h2 : (c :: r :: rs).getLast? = some a := h
      rw [List.getLast?_cons_cons] at h2
      rw [← h'] at h2
      exact ih h2

theorem dropEndWhile_id (p : Char → Bool) (l : Str)
    (h : ∀ a, l.getLast? = some a → p a = false) : dropEndWhile p l = l := by
  induction l with
  | nil => simp [dropEndWhile]
  | cons c cs ih =>
    rw [dropEndWhile]
    rcases cs with _ | ⟨d, ds⟩
    · have := h c (by simp)
      simp [dropEndWhile, this]
    · rw [ih (fun a ha => h a (by simpa using ha))]

theorem dropEndWhile_eq_nil (p : Char → Bool) (l : Str) (h : ∀ c ∈ l, p c = true) :
    dropEndWhile p l = [] := by
  induction l with
  | nil => simp [dropEndWhile]
  | cons c cs ih =>
    rw [dropEndWhile, ih (fun x hx => h x (by simp [hx]))]
    simp [h c (by simp)]

theorem dropWhile_eq_self (p : Char → Bool) (c : Char) (cs : Str) (h : p c = false) :
    (c :: cs).dropWhile p = c :: cs := by
  simp [List.dropWhile, h]

theorem pyStrip_nil : pyStrip [] = [] := rfl

theorem pyStrip_cons_not_ws (c : Char) (cs : Str) (h : pyWS c = false) :
    pyStrip (c :: cs) = dropEndWhile pyWS (c :: cs) := by
  unfold pyStrip
  rw [dropWhile_eq_self pyWS c cs h]

theorem mem_of_dropWhile (p : Char → Bool) (l : Str) (c : Char)
    (hc : c ∈ l.dropWhile p) : c ∈ l := by
  induction l with
  | nil => simp [List.dropWhile] at hc
  | cons d ds ih =>
    rw [List.dropWhile] at hc
    split at hc
    · exact List.mem_cons_of_mem d (ih hc)
    · exact hc

theorem pyStrip_eq_nil (l : Str) (h : ∀ c ∈ l, pyWS c = true) : pyStrip l = [] := by
  unfold pyStrip
  apply dropEndWhile_eq_nil
  intro c hc
  exact h c (mem_of_dropWhile pyWS l c hc)

/-- The two-character-prefix shape preserved by the tail-trimming steps
of the normalizer: empty, a single hyphen, or a `"- "` prefix. -/
def Pref2 (s : Str) : Prop := s = [] ∨ s = ['-'] ∨ s.take 2 = ['-', ' ']

theorem pref2_shape (t : Str) : Pref2 ('-' :: ' ' :: t) := by
  right; right; rfl

theorem pref2_mono (x y : Str) (hp : y <+: x) (hx : Pref2 x) : Pref2 y := by
  obtain ⟨t, rfl⟩ := hp
  rcases y with _ | ⟨a, _ | ⟨b, ys⟩⟩
  · left; rfl
  · rcases hx with h | h | h
    · simp at h
    · simp at h
      right; left
      simp [h.1]
    · simp at h
      right; left
      simp [h.1]
  · rcases hx with h | h | h
    · simp at h
    · simp at h
    · simp at h
      obtain ⟨h1, h2⟩ := h
      right; right
      simp [h1, h2]

theorem pref2_of_take2 (x : Str) (h : x.take 2 = ['-', ' ']) :
    ∃ t, x = '-' :: ' ' :: t := by
  rcases x with _ | ⟨a, _ | ⟨b, xs⟩⟩
  · simp at h
  · simp at h
  · simp at h
    obtain ⟨h1, h2⟩ := h
    exact ⟨xs, by simp [h1, h2]⟩

theorem pref2_pyStrip (x : Str) (hx : Pref2 x) : Pref2 (pyStrip x) := by
  rcases hx with h | h | h
  · subst h; left; rfl
  · subst h
    right; left
    decide
  · obtain ⟨t, rfl⟩ := pref2_of_take2 x h
    rw [pyStrip_cons_not_ws '-' (' ' :: t) (by decide)]
    exact pref2_mono _ _ (dropEndWhile_pre pyWS ('-' :: ' ' :: t)) (pref2_shape t)

theorem pref2_dropEnd (p : Char → Bool) (x : Str) (hx : Pref2 x) :
    Pref2 (dropEndWhile p x) :=
  pref2_mono x _ (dropEndWhile_pre p x) hx

theorem pref2_take (x : Str) (n : Nat) (hx : Pref2 x) : Pref2 (x.take n) :=
  pref2_mono x _ (takeIsPre x n) hx

/-! ## Shape lemmas for the normalizer stages -/

theorem nfkc_cons (c : Char) (l : Str) : nfkc (c :: l) = nfkcChar c ++ nfkc l := by
  simp [nfkc]

theorem nfkc_shape (t : Str) : nfkc ('-' :: ' ' :: t) = '-' :: ' ' :: nfkc t := by
  rw [nfkc_cons, nfkc_cons]
  have h1 : nfkcChar '-' = ['-'] := by decide
  have h2 : nfkcChar ' ' = [' '] := by decide
  rw [h1, h2]
  rfl

theorem collapseWS_cons_ws (c : Char) (cs : Str) (h : pyWS c = true) :
    collapseWS (c :: cs) =
      match collapseWS cs with
      | [] => [' ']
      | d :: ds => if pyWS d = true then d :: ds else ' ' :: d :: ds := by
  rw [collapseWS, if_pos h]

theorem collapseWS_cons_not_ws (c : Char) (cs : Str) (h : pyWS c = false) :
    collapseWS (c :: cs) = c :: collapseWS cs := by
  rw [collapseWS, if_neg (by simp [h])]

/-- Every whitespace character in a collapsed string is a plain space. -/
theorem collapseWS_ws_char (l : Str) :
    ∀ c ∈ collapseWS l, pyWS c = true → c = ' ' := by
  induction l with
  | nil => simp [collapseWS]
  | cons c cs ih =>
    intro x hx hws
    by_cases hc : pyWS c = true
    · rw [collapseWS_cons_ws c cs hc] at hx
      rcases hcc : collapseWS cs with _ | ⟨d, ds⟩
      · rw [hcc] at hx
        simp at hx
        exact hx
      · rw [hcc] at hx
        have hx2 : x ∈ (if pyWS d = true then d :: ds else ' ' :: d :: ds) := hx
        split at hx2
        · exact ih x (by rw [hcc]; exact hx2) hws
        · rcases List.mem_cons.mp hx2 with rfl | hx3
          · rfl
          · exact ih x (by rw [hcc]; exact hx3) hws
    · rw [collapseWS_cons_not_ws c cs (by simpa using hc)] at hx
      rcases List.mem_cons.mp hx with rfl | hx3
      · exact absurd hws hc
      · exact ih x hx3 hws

theorem collapseWS_shape (t : Str) :
    ∃ u, collapseWS ('-' :: ' ' :: t) = '-' :: ' ' :: u := by
  rw [collapseWS_cons_not_ws '-' (' ' :: t) (by decide),
      collapseWS_cons_ws ' ' t (by decide)]
  rcases hcc : collapseWS t with _ | ⟨d, ds⟩
  · exact ⟨[], rfl⟩
  · by_cases hd : pyWS d = true
    · have : d = ' ' := collapseWS_ws_char t d (by rw [hcc]; simp) hd
      subst this
      exact ⟨ds, by simp [hd]⟩
    · exact ⟨d :: ds, by simp [hd]⟩

theorem stage5_cons (c : Char) (l : Str) :
    stage5 (c :: l) =
      (if c == '•' then [] else [dashFix c]) ++ stage5 l := by
  by_cases h : c = '•'
  · subst h
    simp [stage5, removeChar, replChar]
  · have hb : (c == '•') = false := by simp [h]
    simp only [stage5, removeChar, replChar, List.filter_cons, hb, Bool.not_false,
      List.map_cons, if_neg (by simp [h] : ¬(c == '•') = true)]
    unfold dashFix
    by_cases h1 : c = '–'
    · subst h1; simp
    · by_cases h2 : c = '—'
      · subst h2; simp
      · simp [h1, h2]

theorem stage5_shape (t : Str) : stage5 ('-' :: ' ' :: t) = '-' :: ' ' :: stage5 t := by
  rw [stage5_cons, stage5_cons]
  have h1 : (('-' : Char) == '•') = false := by decide
  have h2 : ((' ' : Char) == '•') = false := by decide
  rw [h1, h2]
  have h3 : dashFix '-' = '-' := by decide
  have h4 : dashFix ' ' = ' ' := by decide
  simp [h3, h4]

theorem pref2_stage6 (x : Str) (hx : Pref2 x) : Pref2 (stage6 x) :=
  pref2_pyStrip _ (pref2_dropEnd punctTrimChar x hx)

theorem pref2_stage7 (x : Str) (hx : Pref2 x) : Pref2 (stage7 x) :=
  pref2_pyStrip _ (pref2_dropEnd commaTrimChar x hx)

theorem pref2_stage8 (maxLen : Nat) (x : Str) (hx : Pref2 x) : Pref2 (stage8 maxLen x) := by
  unfold stage8
  split
  · exact pref2_dropEnd pyWS _ (pref2_take x maxLen hx)
  · exact hx

theorem stage8_len (maxLen : Nat) (x : Str) : (stage8 maxLen x).length ≤ maxLen := by
  unfold stage8
  split
  · calc (pyRStrip (x.take maxLen)).length ≤ (x.take maxLen).length :=
          dropEndWhile_len_le pyWS _
      _ ≤ maxLen := by simp [List.length_take]
  · omega

theorem stage2_shape (x : Str) : ∃ t, stage2 x = '-' :: ' ' :: t := by
  unfold stage2
  split
  · next hpre =>
    have : ['-', ' '] <+: x := by
      rwa [← List.isPrefixOf_iff_prefix]
    obtain ⟨t, ht⟩ := this
    exact ⟨t, by rw [← ht]; rfl⟩
  · exact ⟨x, rfl⟩

/-! ## Invariants of the normalizer output -/

/-- Every item kept by a `_normalize_korean_bullets` iteration starts
with `"- "`, fits in `max_len`, and passes the content-admission test. -/
theorem normItem_some (maxLen : Nat) (raw s : Str) (h : normItem maxLen raw = some s) :
    s.take 2 = ['-', ' '] ∧ s.length ≤ maxLen ∧ contentOK s = true := by
  unfold normItem at h
  dsimp only at h
  split at h
  · simp at h
  · split at h
    · next hc =>
      rw [Option.some_inj] at h
      subst h
      obtain ⟨t, ht⟩ := stage2_shape (stage1 (pyStrip raw))
      obtain ⟨u, hu⟩ := collapseWS_shape (nfkc t)
      have hS : stage8 maxLen (stage7 (stage6 (stage5 (collapseWS
            (nfkc (stage2 (stage1 (pyStrip raw)))))))) =
          stage8 maxLen (stage7 (stage6 ('-' :: ' ' :: stage5 u))) := by
        rw [ht, nfkc_shape, hu, stage5_shape]
      rw [hS] at hc ⊢
      have hp : Pref2 (stage8 maxLen (stage7 (stage6 ('-' :: ' ' :: stage5 u)))) :=
        pref2_stage8 _ _ (pref2_stage7 _ (pref2_stage6 _ (pref2_shape _)))
      refine ⟨?_, stage8_len _ _, hc⟩
      rcases hp with hE | hE | hE
      · rw [hE] at hc
        exact absurd hc (by decide)
      · rw [hE] at hc
        exact absurd hc (by decide)
      · exact hE
    · simp at h

theorem normAux_mem (maxLen : Nat) (items : List Str) :
    ∀ seen s, s ∈ normAux maxLen items seen →
      ∃ raw, raw ∈ items ∧ normItem maxLen raw = some s := by
  induction items with
  | nil => intro seen s hs; simp [normAux] at hs
  | cons raw rest ih =>
    intro seen s hs
    rw [normAux] at hs
    rcases hnorm : normItem maxLen raw with _ | t
    · rw [hnorm] at hs
      obtain ⟨r, hr, he⟩ := ih seen s hs
      exact ⟨r, List.mem_cons_of_mem _ hr, he⟩
    · rw [hnorm] at hs
      dsimp only at hs
      split at hs
      · obtain ⟨r, hr, he⟩ := ih seen s hs
        exact ⟨r, List.mem_cons_of_mem _ hr, he⟩
      · rcases List.mem_cons.mp hs with rfl | hs'
        · exact ⟨raw, List.mem_cons_self raw rest, hnorm⟩
        · obtain ⟨r, hr, he⟩ := ih _ s hs'
          exact ⟨r, List.mem_cons_of_mem _ hr, he⟩

theorem normAux_notin (maxLen : Nat) (items : List Str) :
    ∀ seen s, s ∈ normAux maxLen items seen → seen.contains (pyLower s) = false := by
  induction items with
  | nil => intro seen s hs; simp [normAux] at hs
  | cons raw rest ih =>
    intro seen s hs
    rw [normAux] at hs
    rcases hnorm : normItem maxLen raw with _ | t
    · rw [hnorm] at hs
      exact ih seen s hs
    · rw [hnorm] at hs
      dsimp only at hs
      split at hs
      · exact ih seen s hs
      · next hnc =>
        rcases List.mem_cons.mp hs with rfl | hs'
        · simpa using hnc
        · have h2 := ih _ s hs'
          simp only [List.contains_cons, Bool.or_eq_false_iff] at h2
          exact h2.2

theorem normAux_pairwise (maxLen : Nat) (items : List Str) :
    ∀ seen, (normAux maxLen items seen).Pairwise (fun a b => pyLower a ≠ pyLower b) := by
  induction items with
  | nil => intro seen; simp [normAux]
  | cons raw rest ih =>
    intro seen
    rw [normAux]
    rcases hnorm : normItem maxLen raw with _ | t
    · exact ih seen
    · dsimp only
      split
      · exact ih seen
      · refine List.Pairwise.cons ?_ (ih _)
        intro b hb
        have h2 := normAux_notin maxLen rest _ b hb
        simp only [List.contains_cons, Bool.or_eq_false_iff, beq_eq_false_iff_ne] at h2
        exact fun he => h2.1 (he ▸ rfl)

/-- The feature list of `rules_build_fields` is, on every control path,
a normalized list cut to `limit` (each `return` site applies
`_normalize_korean_bullets(·, 64)[:limit]`). -/
theorem rules_build_fields_eq (meta : Option (Str × Str)) (spans : Option (List (ℚ × Str)))
    (text : Str) (d sm : Int) (lim : Nat) :
    ∃ feats, rules_build_fields meta spans text d sm lim =
      (guess_title_from_pdf meta spans text, pyTruncate text d, pyTruncate text sm,
       (normalize_korean_bullets feats 64).take lim) := by
  unfold rules_build_fields
  rcases h1 : catPass (extract_kv_candidates text 500) lim REQUIRED_KEYS [] [] with ⟨f, u, b⟩
  cases b
  · rcases h2 : genPass lim u (extract_kv_candidates text 500).enum f with ⟨f2, b2⟩
    cases b2
    · exact ⟨bulPass lim (extract_bullets text 300) f2, by simp [h1, h2]⟩
    · exact ⟨f2, by simp [h1, h2]⟩
  · exact ⟨f, by simp [h1]⟩

/-! ## Claim C1 -/

/-- C1: for every input (metadata, spans, text) and every configured
feature limit, the features list returned by `rules_build_fields` has
length at most the limit, regardless of how many key/value or bullet
candidates the text yields. -/
theorem rules_feature_cap (meta : Option (Str × Str)) (spans : Option (List (ℚ × Str)))
    (text : Str) (d sm : Int) (lim : Nat) :
    ((rules_build_fields meta spans text d sm lim).2.2.2).length ≤ lim := by
  obtain ⟨feats, hf⟩ := rules_build_fields_eq meta spans text d sm lim
  rw [hf]
  simp [List.length_take]

/-! ## Claim C2 -/

/-- C2: every string in the features list returned by
`rules_build_fields` starts with `"- "`, has length at most 64 (the
bullet maximum the assembler passes to the normalizer), and contains a
digit, a recognized unit token, or a Hangul character; and no two
elements of the list are equal case-insensitively. -/
theorem rules_feature_invariants (meta : Option (Str × Str))
    (spans : Option (List (ℚ × Str))) (text : Str) (d sm : Int) (lim : Nat) :
    (∀ f ∈ (rules_build_fields meta spans text d sm lim).2.2.2,
        f.take 2 = ['-', ' '] ∧ f.length ≤ 64 ∧ contentOK f = true) ∧
    ((rules_build_fields meta spans text d sm lim).2.2.2).Pairwise
      (fun a b => pyLower a ≠ pyLower b) := by
  obtain ⟨feats, hf⟩ := rules_build_fields_eq meta spans text d sm lim
  rw [hf]
  constructor
  · intro f hfm
    have hm : f ∈ normalize_korean_bullets feats 64 :=
      ((takeIsPre (normalize_korean_bullets feats 64) lim).sublist.subset) hfm
    obtain ⟨raw, _, hni⟩ := normAux_mem 64 feats [] f hm
    exact normItem_some 64 raw f hni
  · exact (normAux_pairwise 64 feats []).sublist
      (takeIsPre (normalize_korean_bullets feats 64) lim).sublist

/-- Witness for C2 at a concrete document. -/
theorem rules_feature_invariants_witness :
    (sl "- CPU: 5 GHz").take 2 = ['-', ' '] ∧ (sl "- CPU: 5 GHz").length ≤ 64 ∧
      contentOK (sl "- CPU: 5 GHz") = true :=
  (rules_feature_invariants none none (sl "CPU: 5 GHz") 40 200 24).1
    (sl "- CPU: 5 GHz") (by decide)

/-! ## Claims C9 and C10 -/

/-- C9: the rule-based pipeline is deterministic — two invocations of
`rules_build_fields` on the same document and configuration return
identical results. -/
theorem rules_deterministic (m1 m2 : Option (Str × Str))
    (s1 s2 : Option (List (ℚ × Str))) (t1 t2 : Str) (d1 d2 sm1 sm2 : Int)
    (l1 l2 : Nat) (hm : m1 = m2) (hs : s1 = s2) (ht : t1 = t2) (hd : d1 = d2)
    (hsm : sm1 = sm2) (hl : l1 = l2) :
    rules_build_fields m1 s1 t1 d1 sm1 l1 = rules_build_fields m2 s2 t2 d2 sm2 l2 := by
  subst hm hs ht hd hsm hl
  rfl

/-- Witness for C9 at a concrete document. -/
theorem rules_deterministic_witness :
    rules_build_fields none none (sl "CPU: 5 GHz") 40 200 24 =
      rules_build_fields none none (sl "CPU: 5 GHz") 40 200 24 :=
  rules_deterministic none none none none (sl "CPU: 5 GHz") (sl "CPU: 5 GHz")
    40 40 200 200 24 24 rfl rfl rfl rfl rfl rfl

/-- C10: description and summary are cut by the same `_truncate` from
the same text, so `desc_max ≤ summary_max` makes the description a
prefix of the summary. -/
theorem desc_prefix_summary (meta : Option (Str × Str))
    (spans : Option (List (ℚ × Str))) (text : Str) (d sm : Int) (lim : Nat)
    (h : d ≤ sm) :
    (rules_build_fields meta spans text d sm lim).2.1 <+:
      (rules_build_fields meta spans text d sm lim).2.2.1 := by
  obtain ⟨feats, hf⟩ := rules_build_fields_eq meta spans text d sm lim
  rw [hf]
  show pyTruncate text d <+: pyTruncate text sm
  unfold pyTruncate
  exact List.take_prefix_take_left _ (by omega)

/-- Witness for C10 at a concrete document. -/
theorem desc_prefix_summary_witness :
    (rules_build_fields none none (sl "CPU: 5 GHz") 3 7 24).2.1 <+:
      (rules_build_fields none none (sl "CPU: 5 GHz") 3 7 24).2.2.1 :=
  desc_prefix_summary none none (sl "CPU: 5 GHz") 3 7 24 (by norm_num)

/-! ## Claim C6 -/

theorem replChar_no_nl (l : Str) : ∀ x ∈ replChar '\n' ' ' l, x ≠ '\n' := by
  intro x hx
  obtain ⟨c, _, hc⟩ := List.mem_map.mp hx
  by_cases h : c = '\n'
  · rw [if_pos h] at hc
    subst hc
    decide
  · rw [if_neg h] at hc
    subst hc
    exact h

theorem dropWhile_head_not (p : Char → Bool) (l : Str) (c : Char) (cs : Str)
    (h : l.dropWhile p = c :: cs) : p c = false := by
  induction l with
  | nil => simp [List.dropWhile] at h
  | cons d ds ih =>
    rw [List.dropWhile] at h
    split at h
    · exact ih h
    · next hd =>
      injection h with h1 h2
      rw [← h1]
      simpa using hd

/-- `strip` is the identity on a string whose first and last characters
are not whitespace. -/
theorem pyStrip_id (l : Str)
    (hh : ∀ c, l.head? = some c → pyWS c = false)
    (hl : ∀ c, l.getLast? = some c → pyWS c = false) : pyStrip l = l := by
  rcases l with _ | ⟨c, cs⟩
  · rfl
  · rw [pyStrip_cons_not_ws c cs (hh c rfl)]
    exact dropEndWhile_id pyWS (c :: cs) hl

/-- The scenario text of the C6 counterexample: a 100-character text
with a leading space and no newlines. -/
def c6text : Str := ' ' :: List.replicate 99 'a'

/-- C6 counterexample: `_truncate` strips leading whitespace first, so
for this 100-character text with no newline among its first 40
characters the description is not the first 40 characters of the text. -/
theorem description_leading_space :
    c6text.length = 100 ∧ (∀ c ∈ c6text.take 40, c ≠ '\n') ∧
    (rules_build_fields none none c6text 40 200 24).2.1 ≠ c6text.take 40 := by
  refine ⟨by decide, by decide, by decide⟩

/-- C6 amended: the description equals the first `desc_max` characters
of the text after `strip` and newline-to-space replacement (not of the
raw text); it never contains a newline and fits in `desc_max`; the
scenario equality holds once the text also has no leading or trailing
whitespace. -/
theorem description_amended (meta : Option (Str × Str))
    (spans : Option (List (ℚ × Str))) (text : Str) (d sm : Int) (lim : Nat) :
    (rules_build_fields meta spans text d sm lim).2.1 =
      (replChar '\n' ' ' (pyStrip text)).take (max 0 d).toNat ∧
    (∀ x ∈ (rules_build_fields meta spans text d sm lim).2.1, x ≠ '\n') ∧
    ((rules_build_fields meta spans text d sm lim).2.1).length ≤ (max 0 d).toNat ∧
    (text.length = 100 → (∀ c ∈ text.take 40, c ≠ '\n') →
      (∀ c, text.head? = some c → pyWS c = false) →
      (∀ c, text.getLast? = some c → pyWS c = false) →
      d = 40 →
      (rules_build_fields meta spans text d sm lim).2.1 = text.take 40) := by
  obtain ⟨feats, hf⟩ := rules_build_fields_eq meta spans text d sm lim
  rw [hf]
  have hdesc : (guess_title_from_pdf meta spans text, pyTruncate text d,
      pyTruncate text sm, (normalize_korean_bullets feats 64).take lim).2.1 =
      pyTruncate text d := rfl
  rw [hdesc]
  refine ⟨rfl, ?_, ?_, ?_⟩
  · intro x hx
    exact replChar_no_nl (pyStrip text) x
      ((takeIsPre (replChar '\n' ' ' (pyStrip text)) _).sublist.subset hx)
  · simp [pyTruncate, List.length_take]
  · intro hlen h40 hh hl hd
    subst hd
    unfold pyTruncate
    rw [pyStrip_id text hh hl]
    have hmax : ((max 0 (40 : Int)).toNat) = 40 := by decide
    rw [hmax]
    unfold replChar
    rw [← List.map_take]
    have : ∀ c ∈ text.take 40, (if c = '\n' then ' ' else c) = c := by
      intro c hc
      rw [if_neg (h40 c hc)]
    calc (text.take 40).map (fun c => if c = '\n' then ' ' else c)
        = (text.take 40).map id := List.map_congr_left this
      _ = text.take 40 := List.map_id _

/-- Witness for the C6 amended scenario at a concrete 100-character text. -/
theorem description_amended_witness :
    (rules_build_fields none none (List.replicate 100 'a') 40 200 24).2.1 =
      (List.replicate 100 'a').take 40 :=
  (description_amended none none (List.replicate 100 'a') 40 200 24).2.2.2
    (by decide) (by decide) (by decide) (by decide) rfl

/-! ## Claim C8 -/

theorem ws_not_alnum (c : Char) (h : pyWS c = true) : isAsciiAlnum c = false := by
  simp only [pyWS, Bool.or_eq_true, Bool.and_eq_true, decide_eq_true_eq] at h
  simp only [isAsciiAlnum, isAsciiLetter, isAsciiUpper, isAsciiLower, isAsciiDigit,
    Bool.or_eq_false_iff, Bool.and_eq_false_iff, decide_eq_false_iff_not, not_le]
  omega

theorem takeWhile_nil_of_false (p : Char → Bool) (l : Str)
    (h : ∀ c ∈ l, p c = false) : l.takeWhile p = [] := by
  rcases l with _ | ⟨c, cs⟩
  · rfl
  · simp [List.takeWhile_cons, h c (by simp)]

/-- `MODEL_RX.search` fails on a string without ASCII alphanumerics. -/
theorem findModelToken_none (s : Str) (h : ∀ c ∈ s, isAsciiAlnum c = false) :
    findModelToken s = none := by
  unfold findModelToken
  rw [List.findSome?_eq_none_iff]
  intro i _
  have hdrop : ∀ c ∈ s.drop i, isAsciiAlnum c = false :=
    fun c hc => h c (List.mem_of_mem_drop hc)
  have hletter : (s.drop i).takeWhile isAsciiLetter = [] :=
    takeWhile_nil_of_false _ _ (fun c hc => by
      have := hdrop c hc
      simp only [isAsciiAlnum, Bool.or_eq_false_iff] at this
      exact this.1)
  have halnum : (s.drop i).takeWhile isAsciiAlnum = [] :=
    takeWhile_nil_of_false _ _ hdrop
  have hA : matchModelA s i = none := by
    unfold matchModelA
    dsimp only
    rw [hletter]
    rfl
  have hB : matchModelB s i = none := by
    unfold matchModelB
    dsimp only
    rw [halnum]
    rfl
  by_cases hb : bAt s i = true
  · rw [if_pos hb, hA, hB]
  · rw [if_neg hb]

theorem fixCRLF_sublist : (l : Str) → List.Sublist (fixCRLF l) l
  | [] => by rw [fixCRLF]
  | [c] => by rw [fixCRLF]
  | c :: d :: rest => by
    rw [fixCRLF]
    split
    · next hcd =>
      obtain ⟨rfl, rfl⟩ := hcd
      exact List.Sublist.cons '\r' (List.Sublist.cons₂ '\n' (fixCRLF_sublist rest))
    · exact List.Sublist.cons₂ c (fixCRLF_sublist (d :: rest))

theorem slGo_chars : (l acc : Str) → ∀ piece ∈ slGo l acc, ∀ c ∈ piece, c ∈ l ∨ c ∈ acc
  | [], acc => by
    intro piece hp c hc
    rw [slGo] at hp
    simp at hp
    subst hp
    right
    simpa using hc
  | ch :: rest, acc => by
    intro piece hp c hc
    rw [slGo] at hp
    split at hp
    · rcases List.mem_cons.mp hp with rfl | hp2
      · right
        simpa using hc
      · split at hp2
        · simp at hp2
        · rcases slGo_chars rest [] piece hp2 c hc with h1 | h1
          · exact Or.inl (List.mem_cons_of_mem ch h1)
          · simp at h1
    · rcases slGo_chars rest (ch :: acc) piece hp c hc with h1 | h1
      · exact Or.inl (List.mem_cons_of_mem ch h1)
      · rcases List.mem_cons.mp h1 with rfl | h2
        · exact Or.inl (List.mem_cons_self c rest)
        · exact Or.inr h2

theorem splitLines_chars (l : Str) (piece : Str) (hp : piece ∈ splitLines l) :
    ∀ c ∈ piece, c ∈ l := by
  intro c hc
  unfold splitLines at hp
  split at hp
  · simp at hp
  · rcases slGo_chars (fixCRLF l) [] piece hp c hc with h1 | h1
    · exact (fixCRLF_sublist l).subset h1
    · simp at h1

theorem extract_kv_go_ws (maxItems : Nat) (lines : List Str) (out : List (Str × Str))
    (h : ∀ line ∈ lines, ∀ c ∈ line, pyWS c = true) :
    extract_kv_go maxItems lines out = out := by
  induction lines generalizing out with
  | nil => rfl
  | cons line rest ih =>
    rw [extract_kv_go]
    dsimp only
    rw [pyStrip_eq_nil line (h line (by simp))]
    rw [if_pos (Or.inl rfl)]
    exact ih out (fun l hl c hc => h l (by simp [hl]) c hc)

theorem extract_bullets_go_ws (maxItems : Nat) (lines : List Str) (out : List Str)
    (h : ∀ line ∈ lines, ∀ c ∈ line, pyWS c = true) :
    extract_bullets_go maxItems lines out = out := by
  induction lines generalizing out with
  | nil => rfl
  | cons line rest ih =>
    rw [extract_bullets_go]
    dsimp only
    rw [pyStrip_eq_nil line (h line (by simp))]
    rw [if_pos rfl]
    exact ih out (fun l hl c hc => h l (by simp [hl]) c hc)

theorem extract_kv_ws (text : Str) (h : ∀ c ∈ text, pyWS c = true) :
    extract_kv_candidates text 500 = [] := by
  unfold extract_kv_candidates
  exact extract_kv_go_ws 500 (splitLines text) []
    (fun line hl c hc => h c (splitLines_chars text line hl c hc))

theorem extract_bullets_ws (text : Str) (h : ∀ c ∈ text, pyWS c = true) :
    extract_bullets text 300 = [] := by
  unfold extract_bullets
  exact extract_bullets_go_ws 300 (splitLines text) []
    (fun line hl c hc => h c (splitLines_chars text line hl c hc))

theorem guess_title_ws (text : Str) (h : ∀ c ∈ text, pyWS c = true) :
    guess_title_from_pdf none none text = PLACEHOLDER := by
  unfold guess_title_from_pdf
  have hm : metaTitle none = none := rfl
  have hs : spanTitle none = none := rfl
  have hfm : findModelToken text = none :=
    findModelToken_none text (fun c hc => ws_not_alnum c (h c hc))
  have hfl : firstLineTitle text = none := by
    unfold firstLineTitle
    rw [List.findSome?_eq_none_iff]
    intro line hl
    rw [pyStrip_eq_nil line (fun c hc => h c (splitLines_chars text line hl c hc))]
    rfl
  rw [hm, hs, hfm, hfl]

theorem catPass_nil_kv (lim : Nat) (keys : List Str) (feats : List Str) (used : List Nat) :
    (catPass [] lim keys feats used).1 = feats ∧
    (catPass [] lim keys feats used).2.1 = used := by
  induction keys with
  | nil => exact ⟨rfl, rfl⟩
  | cons key rest ih =>
    rw [catPass]
    have hfind : findKVMatch key [] used = none := rfl
    rw [hfind]
    dsimp only
    split
    · exact ⟨rfl, rfl⟩
    · exact ih

/-- C8: a whitespace-only (in particular, empty) text with no metadata
and no spans yields the placeholder name, empty description and
summary, and an empty feature list; every step of the pipeline is total
on this input. -/
theorem empty_input_defaults (text : Str) (d sm : Int) (lim : Nat)
    (h : ∀ c ∈ text, pyWS c = true) :
    rules_build_fields none none text d sm lim = (PLACEHOLDER, [], [], []) := by
  have hdesc : pyTruncate text d = [] := by
    unfold pyTruncate
    rw [pyStrip_eq_nil text h]
    simp [replChar]
  have hsum : pyTruncate text sm = [] := by
    unfold pyTruncate
    rw [pyStrip_eq_nil text h]
    simp [replChar]
  unfold rules_build_fields
  dsimp only
  rw [guess_title_ws text h, hdesc, hsum, extract_kv_ws text h, extract_bullets_ws text h]
  obtain ⟨hf, hu⟩ := catPass_nil_kv lim REQUIRED_KEYS [] []
  rcases hcat : catPass [] lim REQUIRED_KEYS [] [] with ⟨f, u, b⟩
  rw [hcat] at hf hu
  dsimp only at hf hu
  subst hf
  subst hu
  cases b
  · have hgen : genPass lim ([] : List Nat) ([] : List (Nat × Str × Str)) [] =
        ([], false) := rfl
    have hbul : bulPass lim [] [] = [] := rfl
    simp only [hcat, List.enum_nil, hgen, hbul]
    have hnorm : normalize_korean_bullets [] 64 = [] := rfl
    rw [hnorm]
    simp
  · simp only [hcat]
    have hnorm : normalize_korean_bullets [] 64 = [] := rfl
    rw [hnorm]
    simp

/-- Witness for C8 at a concrete whitespace-only text. -/
theorem empty_input_defaults_witness :
    rules_build_fields none none (sl " \n\t ") 40 200 24 = (PLACEHOLDER, [], [], []) :=
  empty_input_defaults (sl " \n\t ") 40 200 24 (by decide)

/-! ## Claim C7 -/

/-- C7 counterexample: the normalizer does not strip a leading hyphen
run — `lstrip("•* ")` contains no `-` — so `"-5x"` becomes `"- -5x"`,
not the `"- 5x"` the claim predicts. -/
theorem hyphen_not_stripped :
    normalize_korean_bullets [sl "-5x"] 64 = [sl "- -5x"] ∧ sl "- -5x" ≠ sl "- 5x" := by
  exact ⟨by decide, by decide⟩

/-- C7 amended: for an item starting with `-`, `•` or `*` the normalizer
strips only a leading run of `•`, `*` and spaces (never `-`) and then
prefixes `"- "` when the remainder does not already start with `"- "`;
in particular a leading hyphen is kept, giving `"- -…"`, while a leading
`•` or `*` is removed. -/
theorem bullet_marker_strip_amended (d : Char) (u : Str)
    (hws : ∀ c ∈ d :: u, pyWS c = false)
    (hd : leadMarker d = false) :
    stage2 (stage1 ('-' :: d :: u)) = '-' :: ' ' :: '-' :: d :: u ∧
    stage2 (stage1 ('•' :: d :: u)) = '-' :: ' ' :: d :: u ∧
    stage2 (stage1 ('*' :: d :: u)) = '-' :: ' ' :: d :: u := by
  have hstage1 : ∀ c cs, stage1 (c :: cs) =
      if leadMarker c = true then pyStrip ((c :: cs).dropWhile lstripMarker)
      else c :: cs := fun c cs => rfl
  have hdns : pyWS d = false := hws d (by simp)
  have hdsp : d ≠ ' ' := by
    intro he
    rw [he] at hdns
    exact absurd hdns (by decide)
  have hdda : d ≠ '-' := by
    intro he
    rw [he] at hd
    exact absurd hd (by decide)
  have hlm : lstripMarker d = false := by
    simp only [leadMarker, Bool.or_eq_false_iff, beq_eq_false_iff_ne] at hd
    obtain ⟨⟨h1, h2⟩, h3⟩ := hd
    simp only [lstripMarker, Bool.or_eq_false_iff, beq_eq_false_iff_ne]
    exact ⟨⟨h2, h3⟩, hdsp⟩
  have hstrip : pyStrip (d :: u) = d :: u := by
    apply pyStrip_id
    · intro c hc
      injection hc with hc
      rw [← hc]
      exact hdns
    · intro c hc
      exact hws c (List.mem_of_mem_getLast? hc)
  have hsp : ((' ' : Char) == d) = false := beq_eq_false_iff_ne.mpr (Ne.symm hdsp)
  have hda : (('-' : Char) == d) = false := beq_eq_false_iff_ne.mpr (Ne.symm hdda)
  have hpre : (['-', ' '].isPrefixOf (d :: u)) = false := by
    simp [List.isPrefixOf, hda]
  have hpre1 : (['-', ' '].isPrefixOf ('-' :: d :: u)) = false := by
    simp [List.isPrefixOf, hsp]
  refine ⟨?_, ?_, ?_⟩
  · have h1 : stage1 ('-' :: d :: u) = '-' :: d :: u := by
      rw [hstage1, if_pos (by decide)]
      rw [List.dropWhile, show lstripMarker '-' = false from by decide]
      dsimp only [Bool.false_eq_true, if_false]
      apply pyStrip_id
      · intro c hc
        injection hc with hc
        rw [← hc]
        decide
      · intro c hc
        rcases List.mem_cons.mp (List.mem_of_mem_getLast? hc) with rfl | h2
        · decide
        · exact hws c h2
    rw [h1]
    unfold stage2
    rw [if_neg (by simp [hpre1])]
  · have h1 : stage1 ('•' :: d :: u) = d :: u := by
      rw [hstage1, if_pos (by decide)]
      rw [List.dropWhile, show lstripMarker '•' = true from by decide]
      dsimp only [if_true]
      rw [List.dropWhile, hlm]
      dsimp only [Bool.false_eq_true, if_false]
      exact hstrip
    rw [h1]
    unfold stage2
    rw [if_neg (by simp [hpre])]
  · have h1 : stage1 ('*' :: d :: u) = d :: u := by
      rw [hstage1, if_pos (by decide)]
      rw [List.dropWhile, show lstripMarker '*' = true from by decide]
      dsimp only [if_true]
      rw [List.dropWhile, hlm]
      dsimp only [Bool.false_eq_true, if_false]
      exact hstrip
    rw [h1]
    unfold stage2
    rw [if_neg (by simp [hpre])]

/-- Witness for the C7 amended statement at a concrete item. -/
theorem bullet_marker_strip_amended_witness :
    stage2 (stage1 (sl "-f5")) = sl "- -f5" ∧ stage2 (stage1 (sl "•f5")) = sl "- f5" :=
  ⟨((bullet_marker_strip_amended 'f' (sl "5") (by decide) (by decide)).1),
   ((bullet_marker_strip_amended 'f' (sl "5") (by decide) (by decide)).2.1)⟩

/-! ## Claim C3 -/

def c3letters : List Char := ['z', 'q', 'x', 'j', 'k']

/-- Fifty distinct three-letter values with no digit, no unit token and
no Hangul. -/
def c3vals : List Str :=
  ((c3letters.map (fun a => (c3letters.map (fun b => (c3letters.map
    (fun c => [a, b, c])))).flatten)).flatten).take 50

/-- Fifty `CPU: <letters>` lines: 50 distinct KV pairs, each matching
the CPU category, whose bullets all fail the content-admission test. -/
def c3text : Str := List.intercalate ['\n'] (c3vals.map (fun v => sl "CPU: " ++ v))

/-- C3 counterexample: this input yields 50 distinct KV candidate pairs,
each matching one of the 9 categories, and `feature_cap = 24`, yet the
returned features list is empty (the bullet normalizer rejects every
assembled bullet), not a 24-entry list led by all 9 category bullets. -/
theorem scenario50_counterexample :
    (extract_kv_candidates c3text 500).length = 50 ∧
    (extract_kv_candidates c3text 500).Pairwise (· ≠ ·) ∧
    (∀ p ∈ extract_kv_candidates c3text 500,
      ∃ key ∈ REQUIRED_KEYS, matches_key key p.1 p.2 = true) ∧
    (rules_build_fields none none c3text 40 200 24).2.2.2 = [] :=
  ⟨by decide, by decide, by decide, by decide⟩

def c3digits : List Char := ['1', '2', '3', '4', '5', '6', '7']

def c3extraVals : List Str :=
  ((c3digits.map (fun a => c3digits.map (fun b => ['n', a, b]))).flatten).take 41

def c3catLines : List Str :=
  List.zipWith (fun k i => k ++ sl ": " ++ ['m', i]) REQUIRED_KEYS
    ['1', '2', '3', '4', '5', '6', '7', '8', '9']

/-- Nine lines covering all 9 categories plus 41 further CPU lines; all
50 KV pairs are distinct, each matches a category, every bullet carries
a digit, and no two bullets coincide case-insensitively. -/
def c3good : Str :=
  List.intercalate ['\n'] (c3catLines ++ c3extraVals.map (fun v => sl "CPU: " ++ v))

/-- C3 amended: with 50 distinct category-matching KV pairs that cover
all 9 categories and whose bullets survive normalization (each carries
a digit; no case-insensitive duplicates) — as in the scenario input
`c3good` — the features list has exactly 24 entries, the first 9 being
the category bullets in fixed table order, followed only by generic
key/value bullets. -/
theorem scenario50_amended :
    (extract_kv_candidates c3good 500).length = 50 ∧
    (extract_kv_candidates c3good 500).Pairwise (· ≠ ·) ∧
    (∀ p ∈ extract_kv_candidates c3good 500,
      ∃ key ∈ REQUIRED_KEYS, matches_key key p.1 p.2 = true) ∧
    ((rules_build_fields none none c3good 40 200 24).2.2.2).length = 24 ∧
    ((rules_build_fields none none c3good 40 200 24).2.2.2).take 9 =
      List.zipWith (fun k i => mkBullet k ['m', i]) REQUIRED_KEYS
        ['1', '2', '3', '4', '5', '6', '7', '8', '9'] ∧
    ((rules_build_fields none none c3good 40 200 24).2.2.2).drop 9 =
      (c3extraVals.take 15).map (fun v => mkBullet (sl "CPU") v) :=
  ⟨by decide, by decide, by decide, by decide, by decide, by decide⟩

/-! ## Claim C5: facts about the model-code matcher and title resolver -/

theorem alnum_not_ws (c : Char) (h : isAsciiAlnum c = true) : pyWS c = false := by
  simp only [isAsciiAlnum, isAsciiLetter, isAsciiUpper, isAsciiLower, isAsciiDigit,
    Bool.or_eq_true, Bool.and_eq_true, decide_eq_true_eq] at h
  simp only [pyWS, Bool.or_eq_false_iff, Bool.and_eq_false_iff, decide_eq_false_iff_not]
  omega

theorem takeWhile_pos_head (p : Char → Bool) (l : Str)
    (h : 1 ≤ (l.takeWhile p).length) : ∃ c cs, l = c :: cs ∧ p c = true := by
  rcases l with _ | ⟨c, cs⟩
  · simp [List.takeWhile] at h
  · by_cases hp : p c = true
    · exact ⟨c, cs, rfl, hp⟩
    · rw [List.takeWhile_cons] at h
      simp [hp] at h

theorem dropEndWhile_nil_all (p : Char → Bool) (l : Str)
    (h : dropEndWhile p l = []) : ∀ c ∈ l, p c = true := by
  induction l with
  | nil => simp
  | cons c cs ih =>
    rw [dropEndWhile] at h
    rcases h' : dropEndWhile p cs with _ | ⟨r, rs⟩
    · rw [h'] at h
      have h2 : (if p c = true then ([] : Str) else [c]) = [] := h
      intro x hx
      rcases List.mem_cons.mp hx with rfl | hx2
      · by_cases hc : p x = true
        · exact hc
        · rw [if_neg hc] at h2
          simp at h2
      · exact ih h' x hx2
    · rw [h'] at h
      simp at h

theorem pyStrip_len_le (l : Str) : (pyStrip l).length ≤ l.length :=
  le_trans (dropEndWhile_len_le pyWS _) (dropWhile_len_le pyWS l)

theorem pyStrip_cons_ne_nil (c : Char) (cs : Str) (h : pyWS c = false) :
    pyStrip (c :: cs) ≠ [] := by
  rw [pyStrip_cons_not_ws c cs h]
  intro hnil
  have := dropEndWhile_nil_all pyWS (c :: cs) hnil c (by simp)
  rw [this] at h
  exact absurd h (by decide)

theorem pyStrip_head_not_ws (l : Str) (c : Char) (cs : Str)
    (h : pyStrip l = c :: cs) : pyWS c = false := by
  unfold pyStrip at h
  obtain ⟨t, ht⟩ := dropEndWhile_pre pyWS (l.dropWhile pyWS)
  rw [h] at ht
  exact dropWhile_head_not pyWS l c (cs ++ t) (by rw [← ht]; simp)

theorem pyStrip_idem (l : Str) : pyStrip (pyStrip l) = pyStrip l := by
  rcases h : pyStrip l with _ | ⟨c, cs⟩
  · rfl
  · apply pyStrip_id
    · intro x hx
      injection hx with hx
      rw [← hx]
      exact pyStrip_head_not_ws l c cs h
    · intro x hx
      refine dropEndWhile_getLast? pyWS (l.dropWhile pyWS) x ?_
      rw [← h] at hx
      exact hx

theorem matchModelA_some (s : Str) (i j : Nat) (h : matchModelA s i = some j) :
    i + 3 ≤ j ∧ ∃ c cs, s.drop i = c :: cs ∧ isAsciiLetter c = true := by
  unfold matchModelA at h
  dsimp only at h
  split at h
  · next hrun =>
    obtain ⟨jr, hfind, hj⟩ := Option.map_eq_some'.mp h
    have hpred := List.find?_some hfind
    simp only [Bool.and_eq_true, decide_eq_true_eq] at hpred
    refine ⟨by omega, ?_⟩
    exact takeWhile_pos_head isAsciiLetter (s.drop i) (by omega)
  · simp at h

theorem matchModelB_some (s : Str) (i j : Nat) (h : matchModelB s i = some j) :
    i + 1 ≤ j ∧ ∃ c cs, s.drop i = c :: cs ∧ isAsciiAlnum c = true := by
  unfold matchModelB at h
  dsimp only at h
  obtain ⟨n, hn, hfn⟩ := List.exists_of_findSome?_eq_some h
  split at hfn
  · next hcond =>
    obtain ⟨t, hfind, ht⟩ := Option.map_eq_some'.mp hfn
    have hpred := List.find?_some hfind
    simp only [Bool.and_eq_true, decide_eq_true_eq] at hpred
    refine ⟨by omega, ?_⟩
    refine takeWhile_pos_head isAsciiAlnum (s.drop i) ?_
    have hmem : n ∈ (List.range (((s.drop i).takeWhile isAsciiAlnum).length + 1)).reverse := hn
    rw [List.mem_reverse, List.mem_range] at hmem
    omega
  · simp at hfn

/-- Facts about a successful `MODEL_RX` search: the token is a non-empty
slice of the input, so its length is bounded and its head is an ASCII
alphanumeric. -/
theorem findModelToken_some (s tok : Str) (h : findModelToken s = some tok) :
    tok.length ≤ s.length ∧ ∃ c cs, tok = c :: cs ∧ isAsciiAlnum c = true := by
  unfold findModelToken at h
  obtain ⟨i, _, hfi⟩ := List.exists_of_findSome?_eq_some h
  split at hfi
  · have hlen : ∀ k, ((s.drop i).take k).length ≤ s.length := by
      intro k
      calc ((s.drop i).take k).length ≤ (s.drop i).length :=
            (takeIsPre (s.drop i) k).sublist.length_le
        _ ≤ s.length := by simp
    rcases hA : matchModelA s i with _ | j
    · rw [hA] at hfi
      rcases hB : matchModelB s i with _ | j
      · rw [hB] at hfi
        simp at hfi
      · rw [hB] at hfi
        have hfi2 : some ((s.drop i).take (j - i)) = some tok := hfi
        rw [Option.some_inj] at hfi2
        obtain ⟨hj, c, cs, hdrop, hc⟩ := matchModelB_some s i j hB
        subst hfi2
        refine ⟨hlen (j - i), ?_⟩
        have hji : j - i = (j - i - 1) + 1 := by omega
        rw [hdrop, hji, List.take_succ_cons]
        exact ⟨c, _, rfl, hc⟩
    · rw [hA] at hfi
      have hfi2 : some ((s.drop i).take (j - i)) = some tok := hfi
      rw [Option.some_inj] at hfi2
      obtain ⟨hj, c, cs, hdrop, hc⟩ := matchModelA_some s i j hA
      subst hfi2
      refine ⟨hlen (j - i), ?_⟩
      have hji : j - i = (j - i - 1) + 1 := by omega
      rw [hdrop, hji, List.take_succ_cons]
      exact ⟨c, _, rfl, by simp only [isAsciiAlnum, hc, Bool.true_or]⟩
  · simp at hfi

theorem insertDesc_mem (x y : ℚ × Str) (l : List (ℚ × Str))
    (h : y ∈ insertDesc x l) : y = x ∨ y ∈ l := by
  induction l with
  | nil =>
    rw [insertDesc] at h
    simp at h
    exact Or.inl h
  | cons z zs ih =>
    rw [insertDesc] at h
    split at h
    · rcases List.mem_cons.mp h with rfl | h2
      · exact Or.inr (by simp)
      · rcases ih h2 with h3 | h3
        · exact Or.inl h3
        · exact Or.inr (by simp [h3])
    · rcases List.mem_cons.mp h with rfl | h2
      · exact Or.inl rfl
      · exact Or.inr h2

theorem sortDesc_mem_aux (l acc : List (ℚ × Str)) (y : ℚ × Str)
    (h : y ∈ List.foldl (fun a x => insertDesc x a) acc l) : y ∈ acc ∨ y ∈ l := by
  induction l generalizing acc with
  | nil => exact Or.inl h
  | cons z zs ih =>
    rw [List.foldl_cons] at h
    rcases ih (insertDesc z acc) h with h2 | h2
    · rcases insertDesc_mem z y acc h2 with rfl | h3
      · exact Or.inr (by simp)
      · exact Or.inl h3
    · exact Or.inr (by simp [h2])

theorem sortDesc_mem (l : List (ℚ × Str)) (y : ℚ × Str)
    (h : y ∈ sortBySizeDesc l) : y ∈ l := by
  rcases sortDesc_mem_aux l [] y h with h2 | h2
  · simp at h2
  · exact h2

/-- Facts about a kept span: its text is the strip of a raw span's text
and is non-empty. -/
theorem tops_facts (sp : List (ℚ × Str)) (p : ℚ × Str)
    (h : p ∈ sp.filterMap (fun q =>
      let txt := pyStrip q.2
      if txt ≠ [] ∧ 8 ≤ q.1 then some (q.1, txt) else none)) :
    p.2 ≠ [] ∧ ∃ q ∈ sp, p.2 = pyStrip q.2 := by
  obtain ⟨q, hq, heq⟩ := List.mem_filterMap.mp h
  dsimp only at heq
  split at heq
  · next hcond =>
    rw [Option.some_inj] at heq
    subst heq
    exact ⟨hcond.1, q, hq, rfl⟩
  · simp at heq

theorem tryMetaField_some (v0 r : Str) (h : tryMetaField v0 = some r) :
    r ≠ [] ∧ r.length ≤ 100 := by
  unfold tryMetaField at h
  dsimp only at h
  split at h
  · next hcond =>
    obtain ⟨hne, h2, h100⟩ := hcond
    rw [Option.some_inj] at h
    rcases hf : findModelToken (pyStrip v0) with _ | tok
    · rw [hf] at h
      simp only [Option.getD_none] at h
      rw [pyStrip_idem v0] at h
      subst h
      exact ⟨hne, h100⟩
    · rw [hf] at h
      simp only [Option.getD_some] at h
      obtain ⟨hlen, c, cs, htok, hc⟩ := findModelToken_some (pyStrip v0) tok hf
      subst h
      constructor
      · rw [htok]
        exact pyStrip_cons_ne_nil c cs (alnum_not_ws c hc)
      · calc (pyStrip tok).length ≤ tok.length := pyStrip_len_le tok
          _ ≤ (pyStrip v0).length := hlen
          _ ≤ 100 := h100
  · simp at h

theorem metaTitle_some (meta : Option (Str × Str)) (r : Str)
    (h : metaTitle meta = some r) : r ≠ [] ∧ r.length ≤ 100 := by
  rcases meta with _ | ⟨t, su⟩
  · simp [metaTitle] at h
  · rw [metaTitle] at h
    rcases h1 : tryMetaField t with _ | r1
    · rw [h1] at h
      have h2 : tryMetaField su = some r := h
      exact tryMetaField_some su r h2
    · rw [h1] at h
      have h2 : some r1 = some r := h
      rw [Option.some_inj] at h2
      subst h2
      exact tryMetaField_some t r1 h1

theorem spanTitle_some (spans : Option (List (ℚ × Str))) (r : Str)
    (h : spanTitle spans = some r) :
    r ≠ [] ∧ ((∀ sp, spans = some sp → ∀ q ∈ sp, q.2.length ≤ 100) →
      r.length ≤ 100) := by
  rcases spans with _ | sp
  · simp [spanTitle] at h
  · rw [spanTitle] at h
    dsimp only at h
    rcases hsort : sortBySizeDesc (sp.filterMap (fun q =>
        let txt := pyStrip q.2
        if txt ≠ [] ∧ 8 ≤ q.1 then some (q.1, txt) else none)) with _ | ⟨top, restS⟩
    · rw [hsort] at h
      simp at h
    · rw [hsort] at h
      have h3 : (match ((top :: restS).take 50).findSome?
          (fun q => (findModelToken q.2).map pyStrip) with
        | some r1 => some r1
        | none => some (top.2.take 80)) = some r := h
      rcases hfs : ((top :: restS).take 50).findSome?
          (fun q => (findModelToken q.2).map pyStrip) with _ | r1
      · rw [hfs] at h3
        have h2 : some (top.2.take 80) = some r := h3
        rw [Option.some_inj] at h2
        subst h2
        have htop : top ∈ top :: restS := by simp
        rw [← hsort] at htop
        have htops := sortDesc_mem _ top htop
        obtain ⟨hne, q, hq, heq⟩ := tops_facts sp top htops
        constructor
        · simp only [ne_eq, List.take_eq_nil_iff]
          push_neg
          exact ⟨by omega, hne⟩
        · intro hhyp
          calc (top.2.take 80).length ≤ 80 := by
                simp [List.length_take]
            _ ≤ 100 := by omega
      · rw [hfs] at h3
        have h2 : some r1 = some r := h3
        rw [Option.some_inj] at h2
        subst h2
        obtain ⟨q, hqmem, hq⟩ := List.exists_of_findSome?_eq_some hfs
        obtain ⟨tok, htok, hr⟩ := Option.map_eq_some'.mp hq
        subst hr
        obtain ⟨hlen, c, cs, htokeq, hc⟩ := findModelToken_some q.2 tok htok
        constructor
        · rw [htokeq]
          exact pyStrip_cons_ne_nil c cs (alnum_not_ws c hc)
        · intro hhyp
          have hqin : q ∈ top :: restS :=
            (takeIsPre (top :: restS) 50).sublist.subset hqmem
          rw [← hsort] at hqin
          have hqtops := sortDesc_mem _ q hqin
          obtain ⟨-, q0, hq0, heq0⟩ := tops_facts sp q hqtops
          calc (pyStrip tok).length ≤ tok.length := pyStrip_len_le tok
            _ ≤ q.2.length := hlen
            _ = (pyStrip q0.2).length := by rw [heq0]
            _ ≤ q0.2.length := pyStrip_len_le q0.2
            _ ≤ 100 := hhyp sp rfl q0 hq0

/-- The C5 counterexample span text: `"AB"` followed by 120 `C`s, a
single 122-character model-code token. -/
def c5span : Str := 'A' :: 'B' :: List.replicate 120 'C'

/-- C5 counterexample: the span branch returns `m.group(1).strip()`
without truncation, so a span whose model-code token has 122 characters
yields a name longer than 100 characters. -/
theorem guess_title_long_span :
    100 < (guess_title_from_pdf none (some [((10 : ℚ), c5span)]) []).length := by
  decide

/-- C5 amended: the resolved name is never empty, and it has length at
most 100 provided every span's text has length at most 100 (only the
span model-code branch can exceed the bound, returning the matched
token untruncated); with no metadata, no spans, no pattern match and no
non-empty line, the name is the placeholder label. -/
theorem guess_title_amended (meta : Option (Str × Str))
    (spans : Option (List (ℚ × Str))) (text : Str) :
    guess_title_from_pdf meta spans text ≠ [] ∧
    ((∀ sp, spans = some sp → ∀ q ∈ sp, q.2.length ≤ 100) →
      (guess_title_from_pdf meta spans text).length ≤ 100) ∧
    (meta = none → spans = none → findModelToken text = none →
      (∀ line ∈ splitLines text, pyStrip line = []) →
      guess_title_from_pdf meta spans text = PLACEHOLDER) := by
  unfold guess_title_from_pdf
  rcases hm : metaTitle meta with _ | r
  · rcases hsp : spanTitle spans with _ | r
    · rcases hfm : findModelToken text with _ | tok
      · rcases hfl : firstLineTitle text with _ | r
        · refine ⟨by decide, fun _ => by decide, fun _ _ _ _ => rfl⟩
        · obtain ⟨line, hline, hsome⟩ := List.exists_of_findSome?_eq_some hfl
          dsimp only at hsome
          split at hsome
          · simp at hsome
          · next hne =>
            rw [Option.some_inj] at hsome
            subst hsome
            refine ⟨?_, fun _ => ?_, fun _ _ _ hlines => ?_⟩
            · simp only [ne_eq, List.take_eq_nil_iff]
              push_neg
              exact ⟨by omega, hne⟩
            · calc ((pyStrip line).take 80).length ≤ 80 := by
                    simp [List.length_take]
                _ ≤ 100 := by omega
            · exact absurd (hlines line hline) hne
      · refine ⟨?_, fun _ => ?_, fun _ _ hfm2 _ => ?_⟩
        · obtain ⟨-, c, cs, htok, -⟩ := findModelToken_some text tok hfm
          rw [htok]
          simp
        · calc (tok.take 80).length ≤ 80 := by simp [List.length_take]
            _ ≤ 100 := by omega
        · exact Option.noConfusion hfm2
    · obtain ⟨hne, hlen⟩ := spanTitle_some spans r hsp
      refine ⟨hne, fun hhyp => hlen hhyp, fun _ hsp2 _ _ => ?_⟩
      rw [hsp2] at hsp
      have hsp3 : (none : Option Str) = some r := hsp
      exact Option.noConfusion hsp3
  · obtain ⟨hne, hlen⟩ := metaTitle_some meta r hm
    refine ⟨hne, fun _ => hlen, fun hm2 _ _ _ => ?_⟩
    rw [hm2] at hm
    have hm3 : (none : Option Str) = some r := hm
    exact Option.noConfusion hm3

/-- Witness for C5 at the empty document: the amended bound and the
placeholder fallback, with every hypothesis discharged. -/
theorem guess_title_amended_witness :
    (guess_title_from_pdf none none []).length ≤ 100 ∧
    guess_title_from_pdf none none [] = PLACEHOLDER :=
  ⟨(guess_title_amended none none []).2.1 (fun sp hsp => by simp at hsp),
   (guess_title_amended none none []).2.2 rfl rfl (by decide) (by decide)⟩

/-! ## Claim C4 -/

/-- C4 counterexample: normalizing is not idempotent.  The trailing
quote/bullet trim runs before the comma trim, so `'a5",'` keeps its
quote on the first pass (`- a5"`) and loses it on the second (`- a5`). -/
theorem normalize_not_idempotent :
    normalize_korean_bullets (normalize_korean_bullets [sl "a5\","] 64) 64 ≠
      normalize_korean_bullets [sl "a5\","] 64 := by
  decide

/-- A character set on which every normalizer stage is stable: ASCII
alphanumerics, Hangul, the plain space and common spec punctuation; it
excludes all trailing-trim punctuation, bullet/dash glyphs, compat
characters and non-space whitespace, which are what break idempotence. -/
def SafeChar (c : Char) : Bool :=
  isAsciiAlnum c || isHangul c || c == ' ' || c == '-' || c == ':' || c == '.' ||
  c == '/' || c == '(' || c == ')' || c == '+' || c == '%' || c == '~'

theorem safe_cases (c : Char) (hs : SafeChar c = true) :
    isAsciiAlnum c = true ∨ isHangul c = true ∨ c = ' ' ∨ c = '-' ∨ c = ':' ∨
    c = '.' ∨ c = '/' ∨ c = '(' ∨ c = ')' ∨ c = '+' ∨ c = '%' ∨ c = '~' := by
  simp only [SafeChar, Bool.or_eq_true, beq_iff_eq] at hs
  tauto

theorem safe_char_ne (c d : Char) (hs : SafeChar c = true) (hd : SafeChar d = false) :
    c ≠ d := by
  intro he
  rw [he] at hs
  rw [hs] at hd
  exact Bool.noConfusion hd

theorem hangul_not_ws (c : Char) (h : isHangul c = true) : pyWS c = false := by
  simp only [isHangul, Bool.and_eq_true, decide_eq_true_eq] at h
  simp only [pyWS, Bool.or_eq_false_iff, Bool.and_eq_false_iff, decide_eq_false_iff_not]
  omega

theorem safe_ws_space (c : Char) (hs : SafeChar c = true) (hws : pyWS c = true) :
    c = ' ' := by
  rcases safe_cases c hs with h | h | h | h | h | h | h | h | h | h | h | h
  · rw [alnum_not_ws c h] at hws
    exact Bool.noConfusion hws
  · rw [hangul_not_ws c h] at hws
    exact Bool.noConfusion hws
  · exact h
  all_goals subst h
  all_goals exact absurd hws (by decide)

theorem safe_nfkcChar (c : Char) (hs : SafeChar c = true) : nfkcChar c = [c] := by
  unfold nfkcChar
  rw [if_neg (safe_char_ne c '　' hs (by decide)),
      if_neg (safe_char_ne c '：' hs (by decide)),
      if_neg (safe_char_ne c '①' hs (by decide)),
      if_neg (safe_char_ne c '㎒' hs (by decide)),
      if_neg (safe_char_ne c '㎓' hs (by decide))]

theorem safe_not_punct (c : Char) (hs : SafeChar c = true) : punctTrimChar c = false := by
  simp only [punctTrimChar, Bool.or_eq_false_iff, beq_eq_false_iff_ne]
  exact ⟨⟨⟨⟨safe_char_ne c '"' hs (by decide), safe_char_ne c '\'' hs (by decide)⟩,
    safe_char_ne c '·' hs (by decide)⟩, safe_char_ne c '•' hs (by decide)⟩,
    safe_char_ne c '*' hs (by decide)⟩

theorem safe_not_comma (c : Char) (hs : SafeChar c = true) : commaTrimChar c = false := by
  simp only [commaTrimChar, Bool.or_eq_false_iff, beq_eq_false_iff_ne]
  exact ⟨⟨safe_char_ne c '、' hs (by decide), safe_char_ne c ',' hs (by decide)⟩,
    safe_char_ne c '…' hs (by decide)⟩

theorem safe_not_bullet (c : Char) (hs : SafeChar c = true) : (c == '•') = false :=
  beq_eq_false_iff_ne.mpr (safe_char_ne c '•' hs (by decide))

theorem safe_dashFix (c : Char) (hs : SafeChar c = true) : dashFix c = c := by
  unfold dashFix
  rw [if_neg (safe_char_ne c '–' hs (by decide)),
      if_neg (safe_char_ne c '—' hs (by decide))]

theorem mem_dropEnd (p : Char → Bool) (l : Str) (c : Char)
    (h : c ∈ dropEndWhile p l) : c ∈ l :=
  (dropEndWhile_pre p l).sublist.subset h

theorem mem_pyStrip (l : Str) (c : Char) (h : c ∈ pyStrip l) : c ∈ l :=
  mem_of_dropWhile pyWS l c (mem_dropEnd pyWS _ c h)

theorem mem_stage1 (l : Str) (c : Char) (h : c ∈ stage1 l) : c ∈ l := by
  unfold stage1 at h
  rcases l with _ | ⟨d, ds⟩
  · exact h
  · have h2 : c ∈ (if leadMarker d = true then
        pyStrip ((d :: ds).dropWhile lstripMarker) else d :: ds) := h
    split at h2
    · exact mem_of_dropWhile lstripMarker _ c (mem_pyStrip _ c h2)
    · exact h2

theorem mem_stage2 (l : Str) (c : Char) (h : c ∈ stage2 l) :
    c ∈ l ∨ c = '-' ∨ c = ' ' := by
  unfold stage2 at h
  split at h
  · exact Or.inl h
  · rcases List.mem_cons.mp h with rfl | h2
    · exact Or.inr (Or.inl rfl)
    · rcases List.mem_cons.mp h2 with rfl | h3
      · exact Or.inr (Or.inr rfl)
      · exact Or.inl h3

theorem mem_collapseWS (l : Str) (c : Char) (h : c ∈ collapseWS l) :
    c ∈ l ∨ c = ' ' := by
  induction l with
  | nil => simp [collapseWS] at h
  | cons d ds ih =>
    by_cases hd : pyWS d = true
    · rw [collapseWS_cons_ws d ds hd] at h
      rcases hcc : collapseWS ds with _ | ⟨e, es⟩
      · rw [hcc] at h
        simp at h
        exact Or.inr h
      · rw [hcc] at h
        have h2 : c ∈ (if pyWS e = true then e :: es else ' ' :: e :: es) := h
        split at h2
        · rcases ih (by rw [hcc]; exact h2) with h3 | h3
          · exact Or.inl (List.mem_cons_of_mem d h3)
          · exact Or.inr h3
        · rcases List.mem_cons.mp h2 with rfl | h3
          · exact Or.inr rfl
          · rcases ih (by rw [hcc]; exact h3) with h4 | h4
            · exact Or.inl (List.mem_cons_of_mem d h4)
            · exact Or.inr h4
    · rw [collapseWS_cons_not_ws d ds (by simpa using hd)] at h
      rcases List.mem_cons.mp h with rfl | h2
      · exact Or.inl (by simp)
      · rcases ih h2 with h3 | h3
        · exact Or.inl (List.mem_cons_of_mem d h3)
        · exact Or.inr h3

theorem nfkc_safe_id (l : Str) (hs : ∀ c ∈ l, SafeChar c = true) : nfkc l = l := by
  induction l with
  | nil => rfl
  | cons c cs ih =>
    rw [nfkc_cons, safe_nfkcChar c (hs c (by simp)),
      ih (fun x hx => hs x (List.mem_cons_of_mem c hx))]
    rfl

theorem stage5_id (l : Str) (hs : ∀ c ∈ l, SafeChar c = true) : stage5 l = l := by
  induction l with
  | nil => rfl
  | cons c cs ih =>
    rw [stage5_cons, safe_not_bullet c (hs c (by simp)),
      safe_dashFix c (hs c (by simp)),
      ih (fun x hx => hs x (List.mem_cons_of_mem c hx))]
    rfl

/-- No two adjacent whitespace characters. -/
def NoAdjWS (l : Str) : Prop := l.Chain' (fun a b => pyWS a = true → pyWS b = false)

theorem collapseWS_head_not_ws (l : Str) (d : Char) (ds : Str)
    (h : collapseWS l = d :: ds) (hd : pyWS d = true) : d = ' ' :=
  collapseWS_ws_char l d (by rw [h]; simp) hd

theorem collapseWS_chain (l : Str) : NoAdjWS (collapseWS l) := by
  induction l with
  | nil => simp [collapseWS, NoAdjWS]
  | cons c cs ih =>
    by_cases hc : pyWS c = true
    · rw [NoAdjWS, collapseWS_cons_ws c cs hc]
      rcases hcc : collapseWS cs with _ | ⟨e, es⟩
      · show List.Chain' (fun a b => pyWS a = true → pyWS b = false) [' ']
        simp
      · rw [hcc] at ih
        show List.Chain' (fun a b => pyWS a = true → pyWS b = false)
          (if pyWS e = true then e :: es else ' ' :: e :: es)
        by_cases he : pyWS e = true
        · rw [if_pos he]
          exact ih
        · rw [if_neg he]
          exact List.chain'_cons'.mpr ⟨fun b hb => by
            rw [List.head?_cons, Option.mem_def, Option.some_inj] at hb
            subst hb
            intro _
            simpa using he, ih⟩
    · rw [NoAdjWS, collapseWS_cons_not_ws c cs (by simpa using hc)]
      refine List.chain'_cons'.mpr ⟨fun b hb => ?_, ih⟩
      intro hcws
      exact absurd hcws hc

theorem chain'_of_pre (x y : Str) (hp : y <+: x) (h : NoAdjWS x) : NoAdjWS y := by
  rw [List.prefix_iff_eq_take.mp hp]
  exact List.Chain'.take h _

theorem dropWhile_eq_drop' (p : Char → Bool) (l : Str) :
    l.dropWhile p = l.drop (l.takeWhile p).length := by
  induction l with
  | nil => rfl
  | cons c cs ih =>
    rw [List.dropWhile_cons, List.takeWhile_cons]
    split
    · simpa using ih
    · simp

theorem chain'_pyStrip (l : Str) (h : NoAdjWS l) : NoAdjWS (pyStrip l) := by
  unfold pyStrip
  have h1 : NoAdjWS (l.dropWhile pyWS) := by
    rw [dropWhile_eq_drop']
    exact List.Chain'.drop h _
  exact chain'_of_pre _ _ (dropEndWhile_pre pyWS _) h1

theorem collapseWS_id (l : Str) (h1 : ∀ c ∈ l, pyWS c = true → c = ' ')
    (h2 : NoAdjWS l) : collapseWS l = l := by
  induction l with
  | nil => rfl
  | cons c cs ih =>
    have ihcs : collapseWS cs = cs :=
      ih (fun x hx hw => h1 x (List.mem_cons_of_mem c hx) hw)
        ((List.chain'_cons'.mp h2).2)
    by_cases hc : pyWS c = true
    · have hcsp : c = ' ' := h1 c (by simp) hc
      rw [collapseWS_cons_ws c cs hc, ihcs]
      rcases cs with _ | ⟨d, ds⟩
      · show [' '] = [c]
        rw [hcsp]
      · show (if pyWS d = true then d :: ds else ' ' :: d :: ds) = c :: d :: ds
        have hd : pyWS d = false :=
          (List.chain'_cons'.mp h2).1 d (by simp) hc
        rw [if_neg (by simp [hd]), hcsp]
    · rw [collapseWS_cons_not_ws c cs (by simpa using hc), ihcs]

theorem normItem_inner (maxLen : Nat) (raw s : Str) (h : normItem maxLen raw = some s) :
    s = stage8 maxLen (stage7 (stage6 (stage5 (collapseWS
      (nfkc (stage2 (stage1 (pyStrip raw)))))))) := by
  unfold normItem at h
  dsimp only at h
  split at h
  · simp at h
  · split at h
    · rw [Option.some_inj] at h
      exact h.symm
    · simp at h

theorem mem_stage5 (l : Str) (c : Char) (h : c ∈ stage5 l) : c ∈ l ∨ c = '-' := by
  unfold stage5 replChar removeChar at h
  obtain ⟨b, hb, rfl⟩ := List.mem_map.mp h
  obtain ⟨a, ha, rfl⟩ := List.mem_map.mp hb
  have hal : a ∈ l := List.mem_of_mem_filter ha
  by_cases h1 : a = '–'
  · right
    simp [h1]
  · by_cases h2 : a = '—'
    · right
      simp [h1, h2]
    · left
      simpa [h1, h2] using hal

theorem mem_stage6 (l : Str) (c : Char) (h : c ∈ stage6 l) : c ∈ l :=
  mem_dropEnd punctTrimChar l c (mem_pyStrip _ c h)

theorem mem_stage7 (l : Str) (c : Char) (h : c ∈ stage7 l) : c ∈ l :=
  mem_dropEnd commaTrimChar l c (mem_pyStrip _ c h)

theorem mem_stage8 (m : Nat) (l : Str) (c : Char) (h : c ∈ stage8 m l) : c ∈ l := by
  unfold stage8 at h
  split at h
  · exact (takeIsPre l m).sublist.subset (mem_dropEnd pyWS _ c h)
  · exact h

theorem stage8_stage7_last (m : Nat) (x : Str) (a : Char)
    (h : (stage8 m (stage7 x)).getLast? = some a) : pyWS a = false := by
  unfold stage8 at h
  split at h
  · exact dropEndWhile_getLast? pyWS _ a h
  · exact dropEndWhile_getLast? pyWS _ a h

/-- On a list of safe characters, one kept normalizer iteration is a
fixed point: renormalizing its output item reproduces it. -/
theorem normItem_fixed (maxLen : Nat) (raw s : Str)
    (hsafe : ∀ c ∈ raw, SafeChar c = true)
    (h : normItem maxLen raw = some s) : normItem maxLen s = some s := by
  obtain ⟨htake2, hlen, hcont⟩ := normItem_some maxLen raw s h
  obtain ⟨t, hst⟩ := pref2_of_take2 s htake2
  have hseq := normItem_inner maxLen raw s h
  have hX2safe : ∀ c ∈ stage2 (stage1 (pyStrip raw)), SafeChar c = true := by
    intro c hc
    rcases mem_stage2 _ c hc with h2 | h2 | h2
    · exact hsafe c (mem_pyStrip raw c (mem_stage1 _ c h2))
    · subst h2; decide
    · subst h2; decide
  have hX3 : nfkc (stage2 (stage1 (pyStrip raw))) = stage2 (stage1 (pyStrip raw)) :=
    nfkc_safe_id _ hX2safe
  have hX4safe : ∀ c ∈ collapseWS (stage2 (stage1 (pyStrip raw))), SafeChar c = true := by
    intro c hc
    rcases mem_collapseWS _ c hc with h2 | h2
    · exact hX2safe c h2
    · subst h2; decide
  have h5 : stage5 (collapseWS (stage2 (stage1 (pyStrip raw)))) =
      collapseWS (stage2 (stage1 (pyStrip raw))) := stage5_id _ hX4safe
  have hseq' : s = stage8 maxLen (stage7 (stage6
      (collapseWS (stage2 (stage1 (pyStrip raw)))))) := by
    rw [hseq, hX3, h5]
  have hsafe_s : ∀ c ∈ s, SafeChar c = true := by
    rw [hseq']
    intro c hc
    exact hX4safe c (mem_stage6 _ c (mem_stage7 _ c (mem_stage8 _ _ c hc)))
  have hchain_s : NoAdjWS s := by
    rw [hseq']
    have c4 : NoAdjWS (collapseWS (stage2 (stage1 (pyStrip raw)))) := collapseWS_chain _
    have c6 : NoAdjWS (stage6 (collapseWS (stage2 (stage1 (pyStrip raw))))) :=
      chain'_pyStrip _ (chain'_of_pre _ _ (dropEndWhile_pre punctTrimChar _) c4)
    have c7 : NoAdjWS (stage7 (stage6 (collapseWS (stage2 (stage1 (pyStrip raw)))))) :=
      chain'_pyStrip _ (chain'_of_pre _ _ (dropEndWhile_pre commaTrimChar _) c6)
    unfold stage8
    split
    · exact chain'_of_pre _ _ (dropEndWhile_pre pyWS _) (chain'_of_pre _ _ (takeIsPre _ _) c7)
    · exact c7
  have hlast : ∀ a, s.getLast? = some a → pyWS a = false := by
    rw [hseq']
    intro a ha
    exact stage8_stage7_last maxLen _ a ha
  have hstrip_s : pyStrip s = s := by
    apply pyStrip_id
    · intro c hc
      rw [hst] at hc
      injection hc with hc
      rw [← hc]
      decide
    · exact hlast
  have hstage1c : ∀ c cs, stage1 (c :: cs) =
      if leadMarker c = true then pyStrip ((c :: cs).dropWhile lstripMarker)
      else c :: cs := fun c cs => rfl
  have e1 : stage1 s = s := by
    rw [hst, hstage1c, if_pos (by decide)]
    rw [List.dropWhile, show lstripMarker '-' = false from by decide]
    dsimp only [Bool.false_eq_true, if_false]
    rw [← hst]
    exact hstrip_s
  have e2 : stage2 s = s := by
    unfold stage2
    rw [if_pos]
    rw [hst]
    simp [List.isPrefixOf]
  have e3 : nfkc s = s := nfkc_safe_id s hsafe_s
  have e4 : collapseWS s = s :=
    collapseWS_id s (fun c hc hw => safe_ws_space c (hsafe_s c hc) hw) hchain_s
  have e5 : stage5 s = s := stage5_id s hsafe_s
  have e6 : stage6 s = s := by
    unfold stage6
    rw [dropEndWhile_id punctTrimChar s
      (fun a ha => safe_not_punct a (hsafe_s a (List.mem_of_mem_getLast? ha)))]
    exact hstrip_s
  have e7 : stage7 s = s := by
    unfold stage7
    rw [dropEndWhile_id commaTrimChar s
      (fun a ha => safe_not_comma a (hsafe_s a (List.mem_of_mem_getLast? ha)))]
    exact hstrip_s
  have e8 : stage8 maxLen s = s := by
    unfold stage8
    rw [if_neg (by omega)]
  unfold normItem
  dsimp only
  rw [hstrip_s, if_neg (by rw [hst]; simp), e1, e2, e3, e4, e5, e6, e7, e8,
    if_pos hcont]

theorem normAux_fixed (maxLen : Nat) (out : List Str) :
    ∀ seen, (∀ s ∈ out, normItem maxLen s = some s) →
    out.Pairwise (fun a b => pyLower a ≠ pyLower b) →
    (∀ s ∈ out, seen.contains (pyLower s) = false) →
    normAux maxLen out seen = out := by
  induction out with
  | nil => intro seen _ _ _; rfl
  | cons s rest ih =>
    intro seen hid hpw hseen
    rw [normAux, hid s (by simp)]
    dsimp only
    rw [if_neg (by rw [hseen s (by simp)]; simp)]
    congr 1
    apply ih
    · exact fun x hx => hid x (List.mem_cons_of_mem s hx)
    · exact (List.pairwise_cons.mp hpw).2
    · intro x hx
      simp only [List.contains_cons, Bool.or_eq_false_iff, beq_eq_false_iff_ne]
      refine ⟨?_, hseen x (List.mem_cons_of_mem s hx)⟩
      exact fun he => ((List.pairwise_cons.mp hpw).1 x hx) he.symm

/-- C4 amended: `_normalize_korean_bullets` is idempotent on lists over
the stable character set `SafeChar` (no trailing-trim punctuation, no
bullet/dash glyphs, no compat characters, only plain-space whitespace);
outside it, the counterexample above shows idempotence fails. -/
theorem normalize_idempotent_safe (xs : List Str) (maxLen : Nat)
    (hsafe : ∀ s ∈ xs, ∀ c ∈ s, SafeChar c = true) :
    normalize_korean_bullets (normalize_korean_bullets xs maxLen) maxLen =
      normalize_korean_bullets xs maxLen := by
  show normAux maxLen (normalize_korean_bullets xs maxLen) [] =
    normalize_korean_bullets xs maxLen
  apply normAux_fixed
  · intro s hs
    obtain ⟨raw, hraw, hni⟩ := normAux_mem maxLen xs [] s hs
    exact normItem_fixed maxLen raw s (hsafe raw hraw) hni
  · exact normAux_pairwise maxLen xs []
  · intro s _
    rfl

/-- Witness for C4 amended at a concrete safe list. -/
theorem normalize_idempotent_safe_witness :
    normalize_korean_bullets (normalize_korean_bullets [sl "Speed 5 GHz"] 64) 64 =
      normalize_korean_bullets [sl "Speed 5 GHz"] 64 :=
  normalize_idempotent_safe [sl "Speed 5 GHz"] 64 (by decide)
